import Mathlib

/-!
Container format, chunk planner and decoders of gdeflate-benchmark.

A shallow embedding of `format.h`, `compress.cpp`, `decompress-cpu.cpp` and the
dispatch arithmetic of `decompress-gpu.cpp`.

* `char` buffers are lists of raw byte values (`Nat`).
* `std::uint32_t` values are `Nat` reduced with `u32`; `std::size_t` values are
  `Nat` reduced with `u64` (LP64 host).
* The codec (libdeflate's gdeflate entry points) is external to the repository and
  is a parameter, `Codec`.
* A function returns `none` where the C++ has no defined result: a division by
  zero, an access outside a vector, a loop that never exits, or `abort()`.
-/

namespace GDeflate

/-! ## Machine arithmetic -/

/-- Conversion to `std::uint32_t`. -/
def u32 (x : Nat) : Nat := x % 4294967296

/-- Conversion to `std::size_t`. -/
def u64 (x : Nat) : Nat := x % 18446744073709551616

/-- Subtraction of two `std::size_t` values. -/
def sub64 (a b : Nat) : Nat := (a + 18446744073709551616 - b) % 18446744073709551616

/-! ## format.h -/

/-- The record `FileHeader`: six `std::uint32_t` fields in declaration order. -/
structure FileHeader where
  uncompressed_size : Nat
  compressed_size : Nat
  chunk_size : Nat
  tiles_per_chunk : Nat
  num_tiles : Nat
  num_chunks : Nat
deriving DecidableEq, Repr

/-- The record `Tile`. -/
structure Tile where
  offset : Nat
  size : Nat
deriving DecidableEq, Repr, Inhabited

/-- The record `File`: header, tile vector, data vector. -/
structure File where
  header : FileHeader
  tiles : List Tile
  data : List Nat
deriving DecidableEq, Repr

/-- Object representation of a `std::uint32_t` (host byte order, little endian). -/
def encode_u32 (x : Nat) : List Nat :=
  [x % 256, x / 256 % 256, x / 65536 % 256, x / 16777216 % 256]

/-- Value of four bytes read as a `std::uint32_t`; absent bytes read as zero. -/
def decode_u32 (bs : List Nat) : Nat :=
  bs.getD 0 0 + 256 * bs.getD 1 0 + 65536 * bs.getD 2 0 + 16777216 * bs.getD 3 0

/-- Bytes of `fwrite(&header, sizeof(header), 1, f)`. -/
def encode_header (h : FileHeader) : List Nat :=
  encode_u32 h.uncompressed_size ++ encode_u32 h.compressed_size ++ encode_u32 h.chunk_size ++
    encode_u32 h.tiles_per_chunk ++ encode_u32 h.num_tiles ++ encode_u32 h.num_chunks

/-- Bytes of one `Tile` object. -/
def encode_tile (t : Tile) : List Nat := encode_u32 t.offset ++ encode_u32 t.size

/-- Bytes of `fwrite(out_tiles.data(), sizeof(Tile), out_tiles.size(), f)`. -/
def encode_tiles : List Tile → List Nat
  | [] => []
  | t :: ts => encode_tile t ++ encode_tiles ts

/-- The three `fwrite` calls of `compress_buffer` (lines 58-60). -/
def write_file (f : File) : List Nat :=
  encode_header f.header ++ encode_tiles f.tiles ++ f.data

/-- Header read from 24 bytes. -/
def decode_header (bs : List Nat) : FileHeader :=
  { uncompressed_size := decode_u32 bs
    compressed_size := decode_u32 (bs.drop 4)
    chunk_size := decode_u32 (bs.drop 8)
    tiles_per_chunk := decode_u32 (bs.drop 12)
    num_tiles := decode_u32 (bs.drop 16)
    num_chunks := decode_u32 (bs.drop 20) }

/-- What `fread` leaves in a zero-filled buffer of `n` bytes: the bytes available, then
zeros. -/
def fread_into (n : Nat) (bs : List Nat) : List Nat :=
  bs.take n ++ List.replicate (n - (bs.take n).length) 0

/-- A buffer of `8 * n` bytes seen as `n` tiles. -/
def decode_tiles : Nat → List Nat → List Tile
  | 0, _ => []
  | n + 1, bs => ⟨decode_u32 bs, decode_u32 (bs.drop 4)⟩ :: decode_tiles n (bs.drop 8)

/-- `ReadFile`: the header, then `num_tiles` tiles, then `compressed_size` bytes. No result
when the stream is too short for the header, whose fields then stay uninitialised. -/
def ReadFile (bs : List Nat) : Option File :=
  if bs.length < 24 then none
  else
    let header := decode_header bs
    let rest := bs.drop 24
    let tile_bytes := fread_into (8 * header.num_tiles) rest
    let rest2 := rest.drop (8 * header.num_tiles)
    some { header := header
           tiles := decode_tiles header.num_tiles tile_bytes
           data := fread_into header.compressed_size rest2 }

/-! ## The external codec -/

/-- The three libdeflate entry points used by the repository.
* `bound n` is `libdeflate_gdeflate_compress_bound`: `(max_size, max_pages)`.
* `compress chunk npages cap j` is the content `libdeflate_gdeflate_compress` leaves in
  page `j` when given `npages` pages of `cap` bytes each.
* `decompress pages out_size` is `libdeflate_gdeflate_decompress`: the bytes stored in the
  destination, or `none` for a result other than `LIBDEFLATE_SUCCESS`. -/
structure Codec where
  bound : Nat → Nat × Nat
  compress : List Nat → Nat → Nat → Nat → List Nat
  decompress : List (List Nat) → Nat → Option (List Nat)

/-! ## compress.cpp -/

/-- Line 16: `num_chunks`. -/
def num_chunks_of (in_size chunk_size : Nat) : Nat :=
  u64 (in_size + chunk_size - 1) / chunk_size

/-- Line 30: `max_page_size`. -/
def max_page_size_of (cd : Codec) (chunk_size : Nat) : Nat :=
  (cd.bound chunk_size).1 / (cd.bound chunk_size).2

/-- Line 35: `cur_chunk_size` of chunk `i`. -/
def cur_chunk_size (in_size chunk_size i : Nat) : Nat :=
  min chunk_size (sub64 in_size (u64 (chunk_size * i)))

/-- Line 46: the input bytes handed to the codec for chunk `i`. -/
def chunk_input (in_data : List Nat) (chunk_size i : Nat) : List Nat :=
  (in_data.drop (u64 (i * chunk_size))).take (cur_chunk_size in_data.length chunk_size i)

/-- The pages the codec fills for chunk `i` (line 46). -/
def chunk_pages (cd : Codec) (in_data : List Nat) (chunk_size i : Nat) : List (List Nat) :=
  let max_pages := (cd.bound (cur_chunk_size in_data.length chunk_size i)).2
  (List.range max_pages).map
    (cd.compress (chunk_input in_data chunk_size i) max_pages (max_page_size_of cd chunk_size))

/-- Lines 48-51: one tile and one copy per page. -/
def emit_pages : List (List Nat) → List Tile × List Nat → List Tile × List Nat
  | [], s => s
  | p :: ps, s => emit_pages ps (s.1 ++ [⟨u32 s.2.length, u32 p.length⟩], s.2 ++ p)

/-- Body of the chunk loop (lines 35-51) on the pair `(out_tiles, out_data)`. The resize of
line 39 changes the size of `tmp_buffer`, not its storage: the descriptors of lines 41-44
point into the storage allocated at line 32 whatever the new size is. -/
def compress_chunk (cd : Codec) (in_data : List Nat) (chunk_size : Nat) (i : Nat)
    (s : List Tile × List Nat) : Option (List Tile × List Nat) :=
  let cur := cur_chunk_size in_data.length chunk_size i
  let max_pages := (cd.bound cur).2
  let max_page_size := max_page_size_of cd chunk_size
  -- the chunk lies inside `in_data`
  if u64 (i * chunk_size) + cur ≤ in_data.length then
    -- `pages[j]` exists for every `j < max_pages`
    if max_pages ≤ (cd.bound chunk_size).2 then
      let pages := chunk_pages cd in_data chunk_size i
      -- the codec stayed inside each slice
      if pages.all (fun p => p.length ≤ max_page_size) then
        some (emit_pages pages s)
      else none
    else none
  else none

/-- The loop `for (unsigned i = 0; i < num_chunks; ++i)`. The counter is 32 bits wide. The
fuel is `num_chunks`: when the test still holds after that many iterations the counter has
wrapped, `num_chunks` is at least `2^32`, and the loop never exits. -/
def compress_loop (cd : Codec) (in_data : List Nat) (chunk_size num_chunks : Nat) :
    Nat → Nat → List Tile × List Nat → Option (List Tile × List Nat)
  | 0, i, s => if i < num_chunks then none else some s
  | fuel + 1, i, s =>
    if i < num_chunks then
      match compress_chunk cd in_data chunk_size i s with
      | none => none
      | some s1 => compress_loop cd in_data chunk_size num_chunks fuel (u32 (i + 1)) s1
    else some s

/-- The function `compress_buffer`, up to the values handed to `fwrite`. -/
def compress_buffer (cd : Codec) (in_data : List Nat) (chunk_size : Nat) : Option File :=
  if chunk_size = 0 then none
  else if (cd.bound chunk_size).2 = 0 then none
  else
    let num_chunks := num_chunks_of in_data.length chunk_size
    match compress_loop cd in_data chunk_size num_chunks num_chunks 0 ([], []) with
    | none => none
    | some s =>
      some { header :=
               { uncompressed_size := u32 in_data.length
                 compressed_size := u32 s.2.length
                 chunk_size := u32 chunk_size
                 tiles_per_chunk := u32 (cd.bound chunk_size).2
                 num_tiles := u32 s.1.length
                 num_chunks := u32 num_chunks }
             tiles := s.1
             data := s.2 }

/-- The bytes `compress_buffer` writes to `t.bin`. -/
def compress_buffer_output (cd : Codec) (in_data : List Nat) (chunk_size : Nat) :
    Option (List Nat) :=
  (compress_buffer cd in_data chunk_size).map write_file

/-- The buffer `main` of compress.cpp fills: `data[i] = i & 127`. -/
def gen_data (n : Nat) : List Nat := (List.range n).map (fun i => i &&& 127)

/-! ## decompress-cpu.cpp and decompress-gpu.cpp -/

/-- The four per-chunk quantities both decoders derive. -/
structure ChunkArgs where
  base_page : Nat
  num_pages : Nat
  out_offset : Nat
  out_size : Nat
deriving DecidableEq, Repr

/-- Lines 18-23 of `ProcessChunk`; `out_len` is `out_data.size()`. -/
def ProcessChunk_args (h : FileHeader) (out_len chunk_id : Nat) : ChunkArgs :=
  let base_page := u32 (chunk_id * h.tiles_per_chunk)
  let out_offset := u32 (chunk_id * h.chunk_size)
  { base_page := base_page
    num_pages := min h.tiles_per_chunk (sub64 h.num_tiles base_page)
    out_offset := out_offset
    out_size := min h.chunk_size (sub64 out_len out_offset) }

/-- Lines 53-58 of `RecordDispatches`. -/
def RecordDispatches_args (h : FileHeader) (i : Nat) : ChunkArgs :=
  let base_page := u32 (i * h.tiles_per_chunk)
  let out_offset := u32 (i * h.chunk_size)
  { base_page := base_page
    num_pages := min h.tiles_per_chunk (sub64 h.num_tiles base_page)
    out_offset := out_offset
    out_size := min h.chunk_size (sub64 h.uncompressed_size out_offset) }

/-- The bytes a page descriptor built from tile `t` points at. -/
def tile_bytes (file : File) (t : Tile) : List Nat :=
  (file.data.drop t.offset).take t.size

/-- Lines 25-29: the page descriptors of one chunk. -/
def gather_pages (file : File) (base_page num_pages : Nat) : List (List Nat) :=
  (List.range num_pages).map (fun i => tile_bytes file (file.tiles.getD (base_page + i) default))

/-- Storing `d` at offset `off` of `out`. -/
def write_at (out : List Nat) (off : Nat) (d : List Nat) : List Nat :=
  out.take off ++ d ++ out.drop (off + d.length)

/-- The function `ProcessChunk`; `pages_len` is `pages.size()`. The result is the new
content of `out_data`. -/
def ProcessChunk (cd : Codec) (file : File) (pages_len : Nat) (out_data : List Nat)
    (chunk_id : Nat) : Option (List Nat) :=
  let a := ProcessChunk_args file.header out_data.length chunk_id
  -- `file.tiles[base_page + i]` and `pages[base_page + i]` exist
  if a.num_pages = 0 ∨ a.base_page + a.num_pages ≤ min file.tiles.length pages_len then
    -- every descriptor lies inside `file.data`
    if (List.range a.num_pages).all (fun i =>
        (file.tiles.getD (a.base_page + i) default).offset +
          (file.tiles.getD (a.base_page + i) default).size ≤ file.data.length) then
      -- the destination lies inside `out_data`
      if a.out_offset + a.out_size ≤ out_data.length then
        match cd.decompress (gather_pages file a.base_page a.num_pages) a.out_size with
        | none => none
        | some d =>
          -- the codec stayed inside the destination
          if d.length ≤ a.out_size then some (write_at out_data a.out_offset d) else none
      else none
    else none
  else none

/-- The loop `for (unsigned i = id; i < num_chunks; i += num_threads)` of `RunThread`: the
chunk indices handed to `ProcessChunk`, in order. The counter is 32 bits wide. The fuel is
`num_chunks`: when the test still holds after that many iterations an index below
`num_chunks` has come up twice, and the loop never exits. -/
def RunThread_pass (num_chunks num_threads : Nat) : Nat → Nat → Option (List Nat)
  | 0, i => if i < num_chunks then none else some []
  | fuel + 1, i =>
    if i < num_chunks then
      (RunThread_pass num_chunks num_threads fuel (u32 (i + num_threads))).map (fun l => i :: l)
    else some []

/-- One pass of worker `id` out of `num_threads`. -/
def RunThread (num_chunks id num_threads : Nat) : Option (List Nat) :=
  RunThread_pass num_chunks num_threads num_chunks id

/-- Running `ProcessChunk` for the chunk indices of `order`, one after the other. -/
def decode_chunks (cd : Codec) (file : File) (pages_len : Nat) :
    List Nat → List Nat → Option (List Nat)
  | [], out => some out
  | c :: cs, out =>
    match ProcessChunk cd file pages_len out c with
    | none => none
    | some out1 => decode_chunks cd file pages_len cs out1

/-- The buffers `main` allocates (lines 68-69), then `ProcessChunk` over `order`. -/
def decode_cpu (cd : Codec) (file : File) (order : List Nat) : Option (List Nat) :=
  decode_chunks cd file file.header.num_tiles order
    (List.replicate file.header.uncompressed_size 0)

/-- Conversion of a `char` with byte value `b` to `std::size_t` (`char` is signed). -/
def char_to_size (b : Nat) : Nat :=
  if b < 128 then b else b + 18446744073709551360

/-- Lines 88-93 of `main`: the index printed by `invalid data at`, if any. -/
def first_mismatch : List Nat → Nat → Option Nat
  | [], _ => none
  | b :: rest, i => if char_to_size b ≠ (i &&& 127) then some i else first_mismatch rest (i + 1)

/-- Exit code of `main` after the check; `none` when the benchmark loop goes on. -/
def main_check (out_data : List Nat) : Option Nat :=
  match first_mismatch out_data 0 with
  | some _ => some 1
  | none => none

/-! ## Predicates used in the statements -/

/-- Position `p` lies in the output range of a chunk. -/
def in_out_range (a : ChunkArgs) (p : Nat) : Prop :=
  a.out_offset ≤ p ∧ p < a.out_offset + a.out_size

/-- A `File` whose integer fields are `std::uint32_t` values and whose vectors have the
lengths the header announces. -/
def File.Valid (f : File) : Prop :=
  f.header.uncompressed_size < 4294967296 ∧ f.header.compressed_size < 4294967296 ∧
  f.header.chunk_size < 4294967296 ∧ f.header.tiles_per_chunk < 4294967296 ∧
  f.header.num_tiles < 4294967296 ∧ f.header.num_chunks < 4294967296 ∧
  f.tiles.length = f.header.num_tiles ∧ f.data.length = f.header.compressed_size ∧
  ∀ t ∈ f.tiles, t.offset < 4294967296 ∧ t.size < 4294967296

/-- The three conditions under which the body of the chunk loop stays inside `in_data` and
`pages` and the codec inside its pages. -/
def ChunkOK (cd : Codec) (in_data : List Nat) (chunk_size i : Nat) : Prop :=
  u64 (i * chunk_size) + cur_chunk_size in_data.length chunk_size i ≤ in_data.length ∧
  (cd.bound (cur_chunk_size in_data.length chunk_size i)).2 ≤ (cd.bound chunk_size).2 ∧
  ∀ p ∈ chunk_pages cd in_data chunk_size i, p.length ≤ max_page_size_of cd chunk_size

/-- The pages of the chunks `i, i + 1, ..., i + m - 1`, in emission order. -/
def pages_range (cd : Codec) (in_data : List Nat) (chunk_size : Nat) : Nat → Nat → List (List Nat)
  | _, 0 => []
  | i, m + 1 => chunk_pages cd in_data chunk_size i ++ pages_range cd in_data chunk_size (i + 1) m

/-- The header and vectors `compress_buffer` ends with, from the emitted pages. -/
def container_of (cd : Codec) (in_data : List Nat) (chunk_size : Nat) : File :=
  let k := num_chunks_of in_data.length chunk_size
  let s := emit_pages (pages_range cd in_data chunk_size 0 k) ([], [])
  { header :=
      { uncompressed_size := u32 in_data.length
        compressed_size := u32 s.2.length
        chunk_size := u32 chunk_size
        tiles_per_chunk := u32 (cd.bound chunk_size).2
        num_tiles := u32 s.1.length
        num_chunks := u32 k }
    tiles := s.1
    data := s.2 }

/-- The tiles pushed for a list of pages when `out_data` holds `off` bytes. -/
def tiles_from : Nat → List (List Nat) → List Tile
  | _, [] => []
  | off, p :: ps => ⟨u32 off, u32 p.length⟩ :: tiles_from (off + p.length) ps

/-- A bound function whose page count does not grow when the input gets shorter, and a
compressor that stays inside each page. -/
def Codec.Regular (cd : Codec) : Prop :=
  (∀ c c1, c ≤ c1 → (cd.bound c).2 ≤ (cd.bound c1).2) ∧
  ∀ chunk npages cap j, (cd.compress chunk npages cap j).length ≤ cap

/-- Each tile starts where the tiles before it end. -/
def Chained (tiles : List Tile) : Prop :=
  ∀ (j : Nat) (t : Tile), tiles[j]? = some t → t.offset = ((tiles.take j).map Tile.size).sum

/-! ## Codecs and inputs used as concrete instances -/

/-- A codec that stores the input in pages of two bytes, with three bytes reserved per
page. -/
def pairCodec : Codec where
  bound n := (3 * ((n + 1) / 2), (n + 1) / 2)
  compress chunk _ cap j := ((chunk.drop (2 * j)).take 2).take cap
  decompress pages _ := some pages.flatten

/-- A codec with one page per chunk and a fixed reservation of 8 GiB for it; the page holds
the input bytes. -/
def bigCodec : Codec where
  bound _ := (8589934592, 1)
  compress chunk _ cap _ := chunk.take cap
  decompress pages _ := some pages.flatten

/-- A codec with one page per chunk that reserves five bytes more than the input. -/
def storeCodec : Codec where
  bound n := (n + 5, 1)
  compress chunk _ cap _ := chunk.take cap
  decompress pages _ := some pages.flatten

/-- An input of `n` zero bytes. -/
def zeros (n : Nat) : List Nat := List.replicate n 0

/-! ## Machine arithmetic and chunk counts -/

theorem u32_of_lt {x : Nat} (h : x < 4294967296) : u32 x = x := by
  unfold u32; omega

theorem u64_of_lt {x : Nat} (h : x < 18446744073709551616) : u64 x = x := by
  unfold u64; omega

theorem sub64_of_le {a b : Nat} (hb : b ≤ a) (ha : a < 18446744073709551616) :
    sub64 a b = a - b := by
  unfold sub64; omega

theorem and_127 (i : Nat) : i &&& 127 = i % 128 := by
  simpa using Nat.and_pow_two_sub_one_eq_mod i 7

/-- The chunk count of line 16 is the ceiling of `n / c`: `i < ceil(n / c)` exactly when
chunk `i` starts inside the input. -/
theorem lt_ceil_iff {n c : Nat} (hc : 0 < c) (i : Nat) :
    i < (n + c - 1) / c ↔ i * c < n := by
  rw [Nat.lt_iff_add_one_le, Nat.le_div_iff_mul_le hc, Nat.add_mul]
  omega

theorem ceil_bounds {n c : Nat} (hc : 0 < c) :
    n ≤ (n + c - 1) / c * c ∧ (n + c - 1) / c * c < n + c := by
  have h1 := Nat.div_add_mod (n + c - 1) c
  have h2 := Nat.mod_lt (n + c - 1) hc
  have h3 : c * ((n + c - 1) / c) = (n + c - 1) / c * c := Nat.mul_comm _ _
  omega

/-- Every chunk the loop of line 34 visits starts inside the input. -/
theorem num_chunks_of_lt {n c i : Nat} (hc : 0 < c) (hi : i < num_chunks_of n c) :
    i * c < n := by
  have h1 : num_chunks_of n c ≤ (n + c - 1) / c :=
    Nat.div_le_div_right (Nat.mod_le _ _)
  exact (lt_ceil_iff hc i).1 (by omega)

theorem ceil_lt_of_lt {n c : Nat} (hn : n < 4294967296) (hc0 : 0 < c) :
    (n + c - 1) / c < 4294967296 := by
  have hb2 := ceil_bounds (n := n) hc0
  by_contra hcon
  have : 4294967296 * c ≤ (n + c - 1) / c * c := Nat.mul_le_mul_right c (by omega)
  omega

theorem num_chunks_of_eq {n c : Nat} (hn : n < 4294967296) (hc : c < 4294967296) :
    num_chunks_of n c = (n + c - 1) / c := by
  unfold num_chunks_of
  rw [u64_of_lt (by omega)]

theorem num_chunks_of_eq64 {n c : Nat} (hn : n + c ≤ 18446744073709551616) :
    num_chunks_of n c = (n + c - 1) / c := by
  unfold num_chunks_of
  rw [u64_of_lt (by omega)]

theorem num_chunks_of_zero (c : Nat) (hc : 0 < c) : num_chunks_of 0 c = 0 := by
  unfold num_chunks_of u64
  apply Nat.div_eq_of_lt
  have := Nat.mod_le (0 + c - 1) 18446744073709551616
  omega

theorem chunk_offset_lt {n c i : Nat} (hc : 0 < c) (hi : i < (n + c - 1) / c) : i * c < n :=
  (lt_ceil_iff hc i).1 hi

theorem cur_chunk_size_eq {n c i : Nat} (hn : n < 18446744073709551616) (hlt : i * c < n) :
    u64 (i * c) = i * c ∧ cur_chunk_size n c i = min c (n - i * c) := by
  have e1 : u64 (i * c) = i * c := u64_of_lt (by omega)
  refine ⟨e1, ?_⟩
  unfold cur_chunk_size
  rw [Nat.mul_comm c i, e1, sub64_of_le (by omega) hn]

theorem cur_chunk_size_full {n c i : Nat} (hn : n < 18446744073709551616)
    (h : (i + 1) * c < n) : cur_chunk_size n c i = c := by
  rw [Nat.succ_mul] at h
  rw [(cur_chunk_size_eq hn (show i * c < n by omega)).2]
  omega

/-! ## The verification check -/

theorem char_to_size_eq_iff (b i : Nat) : char_to_size b = (i &&& 127) ↔ b = i % 128 := by
  rw [and_127]
  unfold char_to_size
  split <;> omega

theorem first_mismatch_none (l : List Nat) (s : Nat) :
    first_mismatch l s = none ↔ ∀ p, p < l.length → l[p]? = some ((s + p) % 128) := by
  induction l generalizing s with
  | nil => simp [first_mismatch]
  | cons b rest ih =>
    simp only [first_mismatch, ne_eq, char_to_size_eq_iff]
    by_cases hb : b = s % 128
    · simp only [hb, not_true_eq_false, if_false, ih]
      constructor
      · intro h p hp
        cases p with
        | zero => simp
        | succ q =>
          have := h q (by simpa using hp)
          simpa [Nat.add_assoc, Nat.add_comm 1 q] using this
      · intro h p hp
        have := h (p + 1) (by simpa using hp)
        simpa [Nat.add_assoc, Nat.add_comm 1 p] using this
    · simp only [hb, not_false_eq_true, if_true]
      constructor
      · intro h; cases h
      · intro h
        have := h 0 (by simp)
        simp at this
        exact absurd this hb

theorem first_mismatch_some (l : List Nat) (s i : Nat) (h : first_mismatch l s = some i) :
    s ≤ i ∧ i - s < l.length ∧ l[i - s]? ≠ some (i % 128) ∧
      ∀ p, p < i - s → l[p]? = some ((s + p) % 128) := by
  induction l generalizing s with
  | nil => simp [first_mismatch] at h
  | cons b rest ih =>
    simp only [first_mismatch, ne_eq, char_to_size_eq_iff] at h
    by_cases hb : b = s % 128
    · simp only [hb, not_true_eq_false, if_false] at h
      obtain ⟨h1, h2, h3, h4⟩ := ih (s + 1) h
      have e : i - s = (i - (s + 1)) + 1 := by omega
      refine ⟨by omega, ?_, ?_, ?_⟩
      · rw [e]; simpa using h2
      · rw [e]; simpa using h3
      · intro p hp
        cases p with
        | zero => simp [hb]
        | succ q =>
          have := h4 q (by omega)
          simpa [Nat.add_assoc, Nat.add_comm 1 q] using this
    · simp only [hb, not_false_eq_true, if_true, Option.some.injEq] at h
      subst h
      refine ⟨le_refl _, by simp, ?_, ?_⟩
      · simpa using hb
      · intro p hp; omega

theorem first_mismatch_gen (n : Nat) : first_mismatch (gen_data n) 0 = none := by
  rw [first_mismatch_none]
  intro p hp
  have hp2 : p < n := by simpa [gen_data] using hp
  simp [gen_data, List.getElem?_range hp2, and_127]

/-- C8. The check of decompress-cpu.cpp `main` passes exactly when every byte at position
`p` equals `p mod 128`; when it fails the reported index is the smallest position whose
byte differs, and `main` returns 1; the buffer filled by compress.cpp `main` has the
requested length, holds `p & 127 = p mod 128` at every position `p`, and passes the check
for every length. -/
theorem verification_check (out_data : List Nat) (n : Nat) :
    (first_mismatch out_data 0 = none ↔
      ∀ p, p < out_data.length → out_data[p]? = some (p % 128)) ∧
    (∀ i, first_mismatch out_data 0 = some i →
      i < out_data.length ∧ out_data[i]? ≠ some (i % 128) ∧
        (∀ p, p < i → out_data[p]? = some (p % 128)) ∧ main_check out_data = some 1) ∧
    (main_check out_data = none ↔ first_mismatch out_data 0 = none) ∧
    (gen_data n).length = n ∧
    (∀ p, p < n → (gen_data n)[p]? = some (p &&& 127)) ∧
    (∀ p, p < n → (gen_data n)[p]? = some (p % 128)) ∧
    first_mismatch (gen_data n) 0 = none ∧ main_check (gen_data n) = none := by
  have hg : ∀ p, p < n → (gen_data n)[p]? = some (p &&& 127) := by
    intro p hp
    simp [gen_data, List.getElem?_range hp]
  refine ⟨?_, ?_, ?_, by simp [gen_data], hg,
    fun p hp => by rw [hg p hp, and_127], first_mismatch_gen n,
    by simp [main_check, first_mismatch_gen n]⟩
  · simpa using first_mismatch_none out_data 0
  · intro i h
    obtain ⟨_, h2, h3, h4⟩ := first_mismatch_some out_data 0 i h
    refine ⟨by simpa using h2, by simpa using h3, ?_, ?_⟩
    · intro p hp
      simpa using h4 p (by simpa using hp)
    · simp [main_check, h]
  · unfold main_check
    cases first_mismatch out_data 0 <;> simp

/-! ## Round-robin chunk assignment -/

theorem RunThread_pass_spec (k N : Nat) (hN : 1 ≤ N) (hk : k + N ≤ 4294967296) :
    ∀ fuel i, i < k + N → k ≤ i + fuel * N →
      ∃ l, RunThread_pass k N fuel i = some l ∧ l.Pairwise (· < ·) ∧
        ∀ c, c ∈ l ↔ (i ≤ c ∧ c < k ∧ c % N = i % N) := by
  intro fuel
  induction fuel with
  | zero =>
    intro i _ hfuel
    refine ⟨[], ?_, List.Pairwise.nil, ?_⟩
    · simp only [RunThread_pass]
      rw [if_neg (by omega)]
    · intro c; simp; omega
  | succ fuel ih =>
    intro i hi hfuel
    by_cases hik : i < k
    · have hw : u32 (i + N) = i + N := u32_of_lt (by omega)
      have hfuel2 : k ≤ i + N + fuel * N := by
        rw [Nat.add_mul] at hfuel; omega
      obtain ⟨l, hl, hsorted, hmem⟩ := ih (i + N) (by omega) hfuel2
      refine ⟨i :: l, ?_, ?_, ?_⟩
      · simp only [RunThread_pass]
        rw [if_pos hik, hw, hl]; rfl
      · refine List.Pairwise.cons ?_ hsorted
        intro c hc
        have := (hmem c).1 hc
        omega
      · intro c
        simp only [List.mem_cons, hmem, Nat.add_mod_right]
        constructor
        · rintro (h | ⟨h1, h2, h3⟩)
          · subst h; exact ⟨le_refl _, hik, rfl⟩
          · exact ⟨by omega, h2, h3⟩
        · rintro ⟨h1, h2, h3⟩
          by_cases hci : c = i
          · exact Or.inl hci
          · right
            refine ⟨?_, h2, h3⟩
            have hd : N ∣ c - i := Nat.dvd_of_mod_eq_zero (Nat.sub_mod_eq_zero_of_mod_eq h3)
            have := Nat.le_of_dvd (by omega) hd
            omega
    · refine ⟨[], ?_, List.Pairwise.nil, ?_⟩
      · simp only [RunThread_pass]
        rw [if_neg hik]
      · intro c; simp; omega

theorem RunThread_spec (k N id : Nat) (hN : 1 ≤ N) (hk : k + N ≤ 4294967296) (hid : id < N) :
    ∃ l, RunThread k id N = some l ∧ l.Nodup ∧ ∀ c, c ∈ l ↔ (c < k ∧ c % N = id) := by
  have hfuel : k ≤ id + k * N := by
    have : k * 1 ≤ k * N := Nat.mul_le_mul_left k hN
    omega
  obtain ⟨l, hl, hs, hmem⟩ := RunThread_pass_spec k N hN hk k id (by omega) hfuel
  refine ⟨l, hl, ?_, ?_⟩
  · exact hs.imp (fun h => Nat.ne_of_lt h)
  · intro c
    rw [hmem, Nat.mod_eq_of_lt hid]
    constructor
    · rintro ⟨_, h2, h3⟩; exact ⟨h2, h3⟩
    · rintro ⟨h2, h3⟩
      refine ⟨?_, h2, h3⟩
      have := Nat.mod_le c N
      omega

/-- C9 (amended). For `N ≥ 1` workers and `num_chunks + N ≤ 2^32`, one pass of worker `id`
visits exactly the chunk indices below `num_chunks` that are congruent to `id` modulo `N`,
each once; the passes of different workers are disjoint, their union is `[0, num_chunks)`,
and it is the set one worker alone visits. -/
theorem round_robin_assignment (k N : Nat) (hN : 1 ≤ N) (hk : k + N ≤ 4294967296) :
    (∀ id, id < N → ∃ l, RunThread k id N = some l ∧ l.Nodup ∧
      ∀ c, c ∈ l ↔ (c < k ∧ c % N = id)) ∧
    (∀ id1 id2 l1 l2 c, id1 < N → id2 < N → RunThread k id1 N = some l1 →
      RunThread k id2 N = some l2 → c ∈ l1 → c ∈ l2 → id1 = id2) ∧
    (∀ c, c < k ↔ ∃ id l, id < N ∧ RunThread k id N = some l ∧ c ∈ l) ∧
    (∃ l1, RunThread k 0 1 = some l1 ∧
      ∀ c, c ∈ l1 ↔ ∃ id l, id < N ∧ RunThread k id N = some l ∧ c ∈ l) := by
  have hall := fun id (hid : id < N) => RunThread_spec k N id hN hk hid
  have hcover : ∀ c, c < k ↔ ∃ id l, id < N ∧ RunThread k id N = some l ∧ c ∈ l := by
    intro c
    constructor
    · intro hc
      have hid : c % N < N := Nat.mod_lt _ (by omega)
      obtain ⟨l, hl, _, hmem⟩ := hall (c % N) hid
      exact ⟨c % N, l, hid, hl, (hmem c).2 ⟨hc, rfl⟩⟩
    · rintro ⟨id, l, hid, hl, hc⟩
      obtain ⟨l1, hl1, _, hmem⟩ := hall id hid
      rw [hl] at hl1
      cases hl1
      exact ((hmem c).1 hc).1
  refine ⟨hall, ?_, hcover, ?_⟩
  · intro id1 id2 l1 l2 c h1 h2 e1 e2 c1 c2
    obtain ⟨m1, hm1, _, hmem1⟩ := hall id1 h1
    obtain ⟨m2, hm2, _, hmem2⟩ := hall id2 h2
    rw [e1] at hm1
    rw [e2] at hm2
    cases hm1
    cases hm2
    rw [← ((hmem1 c).1 c1).2, ← ((hmem2 c).1 c2).2]
  · obtain ⟨l1, hl1, _, hmem⟩ := RunThread_spec k 1 0 (le_refl _) (by omega) (by decide)
    refine ⟨l1, hl1, ?_⟩
    intro c
    rw [← hcover c, hmem c]
    simp [Nat.mod_one]

/-- Instance of `round_robin_assignment`: five chunks, two workers. -/
theorem round_robin_assignment_witness :
    (1 ≤ 2 ∧ 5 + 2 ≤ 4294967296) ∧ RunThread 5 0 2 = some [0, 2, 4] ∧
      RunThread 5 1 2 = some [1, 3] ∧
      ∀ c, c < 5 ↔ ∃ id l, id < 2 ∧ RunThread 5 id 2 = some l ∧ c ∈ l :=
  ⟨⟨by decide, by decide⟩, by decide, by decide,
    (round_robin_assignment 5 2 (by decide) (by decide)).2.2.1⟩

/-- C9 as stated fails when the 32-bit counter wraps: with 3 chunks and `2^32 - 1` workers,
worker 2 visits chunks 2, 1 and 0, and chunk 0 is also the chunk of worker 0. -/
theorem round_robin_wraps :
    RunThread 3 2 4294967295 = some [2, 1, 0] ∧ RunThread 3 0 4294967295 = some [0] := by
  decide

/-! ## Output ranges of the decoders -/

theorem ProcessChunk_args_out (h : FileHeader) (i : Nat) (hcs : 0 < h.chunk_size)
    (hus : h.uncompressed_size < 4294967296)
    (hi : i < (h.uncompressed_size + h.chunk_size - 1) / h.chunk_size) :
    (ProcessChunk_args h h.uncompressed_size i).out_offset = i * h.chunk_size ∧
    (ProcessChunk_args h h.uncompressed_size i).out_size =
      min h.chunk_size (h.uncompressed_size - i * h.chunk_size) := by
  have hlt := chunk_offset_lt hcs hi
  have e1 : u32 (i * h.chunk_size) = i * h.chunk_size := u32_of_lt (by omega)
  have e2 : sub64 h.uncompressed_size (i * h.chunk_size) =
      h.uncompressed_size - i * h.chunk_size := sub64_of_le (by omega) (by omega)
  simp [ProcessChunk_args, e1, e2]

theorem RecordDispatches_args_eq (h : FileHeader) (i : Nat) :
    RecordDispatches_args h i = ProcessChunk_args h h.uncompressed_size i := rfl

/-! ## Serialization -/

theorem length_encode_u32 (x : Nat) : (encode_u32 x).length = 4 := rfl

theorem length_encode_header (h : FileHeader) : (encode_header h).length = 24 := rfl

theorem length_encode_tiles (ts : List Tile) : (encode_tiles ts).length = 8 * ts.length := by
  induction ts with
  | nil => rfl
  | cons t ts ih =>
    simp only [encode_tiles, encode_tile, List.length_append, length_encode_u32, ih,
      List.length_cons]
    omega

theorem decode_encode_u32 (x : Nat) (hx : x < 4294967296) (r : List Nat) :
    decode_u32 (encode_u32 x ++ r) = x := by
  simp only [decode_u32, encode_u32, List.cons_append, List.nil_append, List.getD_cons_zero,
    List.getD_cons_succ]
  omega

theorem decode_encode_header (h : FileHeader) (r : List Nat)
    (h1 : h.uncompressed_size < 4294967296) (h2 : h.compressed_size < 4294967296)
    (h3 : h.chunk_size < 4294967296) (h4 : h.tiles_per_chunk < 4294967296)
    (h5 : h.num_tiles < 4294967296) (h6 : h.num_chunks < 4294967296) :
    decode_header (encode_header h ++ r) = h := by
  have e : ∀ a b c d e f : Nat, encode_u32 a ++ encode_u32 b ++ encode_u32 c ++ encode_u32 d ++
      encode_u32 e ++ encode_u32 f ++ r = encode_u32 a ++ (encode_u32 b ++ (encode_u32 c ++
      (encode_u32 d ++ (encode_u32 e ++ (encode_u32 f ++ r))))) := by
    intro a b c d e f; simp only [List.append_assoc]
  cases h with
  | mk a b c d e6 f =>
    simp only at h1 h2 h3 h4 h5 h6
    unfold decode_header encode_header
    simp only [e]
    have q1 : (encode_u32 a ++ (encode_u32 b ++ (encode_u32 c ++ (encode_u32 d ++
        (encode_u32 e6 ++ (encode_u32 f ++ r)))))).drop 4 = encode_u32 b ++ (encode_u32 c ++
        (encode_u32 d ++ (encode_u32 e6 ++ (encode_u32 f ++ r)))) := rfl
    have q2 : (encode_u32 a ++ (encode_u32 b ++ (encode_u32 c ++ (encode_u32 d ++
        (encode_u32 e6 ++ (encode_u32 f ++ r)))))).drop 8 = encode_u32 c ++
        (encode_u32 d ++ (encode_u32 e6 ++ (encode_u32 f ++ r))) := rfl
    have q3 : (encode_u32 a ++ (encode_u32 b ++ (encode_u32 c ++ (encode_u32 d ++
        (encode_u32 e6 ++ (encode_u32 f ++ r)))))).drop 12 =
        encode_u32 d ++ (encode_u32 e6 ++ (encode_u32 f ++ r)) := rfl
    have q4 : (encode_u32 a ++ (encode_u32 b ++ (encode_u32 c ++ (encode_u32 d ++
        (encode_u32 e6 ++ (encode_u32 f ++ r)))))).drop 16 =
        encode_u32 e6 ++ (encode_u32 f ++ r) := rfl
    have q5 : (encode_u32 a ++ (encode_u32 b ++ (encode_u32 c ++ (encode_u32 d ++
        (encode_u32 e6 ++ (encode_u32 f ++ r)))))).drop 20 = encode_u32 f ++ r := rfl
    rw [q1, q2, q3, q4, q5]
    simp only [decode_encode_u32 _ h1, decode_encode_u32 _ h2, decode_encode_u32 _ h3,
      decode_encode_u32 _ h4, decode_encode_u32 _ h5, decode_encode_u32 _ h6]

theorem decode_encode_tiles (ts : List Tile) (r : List Nat)
    (h : ∀ t ∈ ts, t.offset < 4294967296 ∧ t.size < 4294967296) :
    decode_tiles ts.length (encode_tiles ts ++ r) = ts := by
  induction ts with
  | nil => rfl
  | cons t ts ih =>
    have ht := h t (List.mem_cons_self _ _)
    have e : encode_tiles (t :: ts) ++ r =
        encode_u32 t.offset ++ (encode_u32 t.size ++ (encode_tiles ts ++ r)) := by
      simp only [encode_tiles, encode_tile, List.append_assoc]
    have q1 : (encode_u32 t.offset ++ (encode_u32 t.size ++ (encode_tiles ts ++ r))).drop 4 =
        encode_u32 t.size ++ (encode_tiles ts ++ r) := rfl
    have q2 : (encode_u32 t.offset ++ (encode_u32 t.size ++ (encode_tiles ts ++ r))).drop 8 =
        encode_tiles ts ++ r := rfl
    rw [e]
    simp only [List.length_cons, decode_tiles]
    rw [q1, q2, decode_encode_u32 _ ht.1, decode_encode_u32 _ ht.2,
      ih (fun t' ht' => h t' (List.mem_cons_of_mem _ ht'))]

theorem fread_into_exact (l r : List Nat) : fread_into l.length (l ++ r) = l := by
  unfold fread_into
  rw [List.take_left' rfl]
  simp

theorem ReadFile_write_file (f : File) (hv : f.Valid) : ReadFile (write_file f) = some f := by
  obtain ⟨h1, h2, h3, h4, h5, h6, ht, hd, htiles⟩ := hv
  have hlen : ¬ (write_file f).length < 24 := by
    simp only [write_file, List.length_append, length_encode_header]
    omega
  have hh : decode_header (write_file f) = f.header := by
    unfold write_file
    rw [List.append_assoc]
    exact decode_encode_header _ _ h1 h2 h3 h4 h5 h6
  have hrest : (write_file f).drop 24 = encode_tiles f.tiles ++ f.data := by
    unfold write_file
    rw [List.append_assoc]
    exact List.drop_left' (length_encode_header _)
  have htl : (encode_tiles f.tiles).length = 8 * f.header.num_tiles := by
    rw [length_encode_tiles, ht]
  unfold ReadFile
  rw [if_neg hlen]
  simp only [hh, hrest]
  have e1 : fread_into (8 * f.header.num_tiles) (encode_tiles f.tiles ++ f.data) =
      encode_tiles f.tiles := by
    rw [← htl]; exact fread_into_exact _ _
  have e2 : (encode_tiles f.tiles ++ f.data).drop (8 * f.header.num_tiles) = f.data :=
    List.drop_left' htl
  have e3 : fread_into f.header.compressed_size f.data = f.data := by
    rw [← hd]
    have := fread_into_exact f.data []
    simpa using this
  have e4 : decode_tiles f.header.num_tiles (encode_tiles f.tiles) = f.tiles := by
    rw [← ht]
    have := decode_encode_tiles f.tiles [] htiles
    simpa using this
  rw [e1, e2, e3, e4]

/-- C7. For a `File` with `num_tiles` tiles and `compressed_size` data bytes, the bytes
`compress_buffer` writes are the 24 header bytes (six 32-bit fields in declaration order),
8 bytes per tile (offset, then size) and the data, `24 + 8 * num_tiles + compressed_size`
bytes in all, and `ReadFile` on these bytes returns the same header, tiles and data. -/
theorem serialization_round_trip (f : File) (hv : f.Valid) :
    write_file f = encode_header f.header ++ encode_tiles f.tiles ++ f.data ∧
    encode_header f.header =
      encode_u32 f.header.uncompressed_size ++ encode_u32 f.header.compressed_size ++
      encode_u32 f.header.chunk_size ++ encode_u32 f.header.tiles_per_chunk ++
      encode_u32 f.header.num_tiles ++ encode_u32 f.header.num_chunks ∧
    (encode_header f.header).length = 24 ∧
    (encode_tiles f.tiles).length = 8 * f.header.num_tiles ∧
    (∀ t ts, encode_tiles (t :: ts) = encode_u32 t.offset ++ encode_u32 t.size ++
      encode_tiles ts) ∧
    (write_file f).length = 24 + 8 * f.header.num_tiles + f.header.compressed_size ∧
    ReadFile (write_file f) = some f ∧
    (∀ cd in_data chunk_size, compress_buffer cd in_data chunk_size = some f →
      compress_buffer_output cd in_data chunk_size = some (write_file f)) := by
  have ht := hv.2.2.2.2.2.2.1
  have hd := hv.2.2.2.2.2.2.2.1
  refine ⟨rfl, rfl, rfl, ?_, fun _ _ => rfl, ?_, ReadFile_write_file f hv, ?_⟩
  · rw [length_encode_tiles, ht]
  · simp only [write_file, List.length_append, length_encode_header, length_encode_tiles, ht, hd]
  · intro cd in_data chunk_size h
    simp [compress_buffer_output, h]

/-- Instance of `serialization_round_trip`: the container of seven bytes in chunks of four. -/
theorem serialization_round_trip_witness :
    File.Valid ⟨⟨7, 7, 4, 2, 4, 2⟩, [⟨0, 2⟩, ⟨2, 2⟩, ⟨4, 2⟩, ⟨6, 1⟩], [10, 11, 12, 13, 14, 15, 16]⟩ ∧
    (write_file ⟨⟨7, 7, 4, 2, 4, 2⟩, [⟨0, 2⟩, ⟨2, 2⟩, ⟨4, 2⟩, ⟨6, 1⟩],
      [10, 11, 12, 13, 14, 15, 16]⟩).length = 24 + 8 * 4 + 7 ∧
    ReadFile (write_file ⟨⟨7, 7, 4, 2, 4, 2⟩, [⟨0, 2⟩, ⟨2, 2⟩, ⟨4, 2⟩, ⟨6, 1⟩],
      [10, 11, 12, 13, 14, 15, 16]⟩) =
      some ⟨⟨7, 7, 4, 2, 4, 2⟩, [⟨0, 2⟩, ⟨2, 2⟩, ⟨4, 2⟩, ⟨6, 1⟩], [10, 11, 12, 13, 14, 15, 16]⟩ :=
  have hv : File.Valid ⟨⟨7, 7, 4, 2, 4, 2⟩, [⟨0, 2⟩, ⟨2, 2⟩, ⟨4, 2⟩, ⟨6, 1⟩],
      [10, 11, 12, 13, 14, 15, 16]⟩ := by
    unfold File.Valid; decide
  ⟨hv, (serialization_round_trip _ hv).2.2.2.2.2.1, (serialization_round_trip _ hv).2.2.2.2.2.2.1⟩

/-! ## The chunk loop of the compressor -/

theorem compress_chunk_eq_some (cd : Codec) (in_data : List Nat) (chunk_size i : Nat)
    (s s1 : List Tile × List Nat) :
    compress_chunk cd in_data chunk_size i s = some s1 ↔
      ChunkOK cd in_data chunk_size i ∧ s1 = emit_pages (chunk_pages cd in_data chunk_size i) s := by
  unfold compress_chunk ChunkOK
  simp only [List.all_eq_true, decide_eq_true_eq]
  constructor
  · intro h
    split at h
    · split at h
      · split at h
        · simp only [Option.some.injEq] at h
          exact ⟨⟨by assumption, by assumption, by assumption⟩, h.symm⟩
        · cases h
      · cases h
    · cases h
  · rintro ⟨⟨h1, h2, h4⟩, rfl⟩
    rw [if_pos h1, if_pos h2, if_pos h4]

theorem emit_pages_append (a b : List (List Nat)) (s : List Tile × List Nat) :
    emit_pages (a ++ b) s = emit_pages b (emit_pages a s) := by
  induction a generalizing s with
  | nil => rfl
  | cons p ps ih => exact ih _

theorem pages_range_add (cd : Codec) (in_data : List Nat) (chunk_size i a b : Nat) :
    pages_range cd in_data chunk_size i (a + b) =
      pages_range cd in_data chunk_size i a ++ pages_range cd in_data chunk_size (i + a) b := by
  induction a generalizing i with
  | zero => simp [pages_range]
  | succ a ih =>
    have e : a + 1 + b = (a + b) + 1 := by omega
    rw [e]
    simp only [pages_range, ih, List.append_assoc]
    have e2 : i + 1 + a = i + (a + 1) := by omega
    rw [e2]

theorem compress_loop_eq_some (cd : Codec) (in_data : List Nat) (chunk_size k : Nat)
    (hk : k < 4294967296) :
    ∀ fuel i s s1, i + fuel = k →
      (compress_loop cd in_data chunk_size k fuel i s = some s1 ↔
        (∀ j, i ≤ j → j < k → ChunkOK cd in_data chunk_size j) ∧
          s1 = emit_pages (pages_range cd in_data chunk_size i fuel) s) := by
  intro fuel
  induction fuel with
  | zero =>
    intro i s s1 hi
    simp only [compress_loop, pages_range, emit_pages]
    rw [if_neg (by omega)]
    constructor
    · intro h
      simp only [Option.some.injEq] at h
      exact ⟨fun j h1 h2 => by omega, h.symm⟩
    · rintro ⟨_, rfl⟩; rfl
  | succ fuel ih =>
    intro i s s1 hi
    have hik : i < k := by omega
    have hw : u32 (i + 1) = i + 1 := u32_of_lt (by omega)
    simp only [compress_loop, pages_range]
    rw [if_pos hik, hw, emit_pages_append]
    constructor
    · intro h
      cases hc : compress_chunk cd in_data chunk_size i s with
      | none => rw [hc] at h; cases h
      | some s2 =>
        rw [hc] at h
        simp only at h
        obtain ⟨hok, hs2⟩ := (compress_chunk_eq_some cd in_data chunk_size i s s2).1 hc
        obtain ⟨hrest, hs1⟩ := (ih (i + 1) s2 s1 (by omega)).1 h
        refine ⟨?_, ?_⟩
        · intro j h1 h2
          by_cases hj : j = i
          · subst hj; exact hok
          · exact hrest j (by omega) h2
        · rw [hs1, hs2]
    · rintro ⟨hall, hs1⟩
      have hok := hall i (le_refl _) hik
      have hc := (compress_chunk_eq_some cd in_data chunk_size i s _).2 ⟨hok, rfl⟩
      rw [hc]
      simp only
      exact (ih (i + 1) _ s1 (by omega)).2 ⟨fun j h1 h2 => hall j (by omega) h2, hs1⟩

theorem compress_loop_diverges (cd : Codec) (in_data : List Nat) (chunk_size k : Nat)
    (hk : 4294967296 ≤ k) :
    ∀ fuel i s, i < 4294967296 → compress_loop cd in_data chunk_size k fuel i s = none := by
  intro fuel
  induction fuel with
  | zero =>
    intro i s hi
    simp only [compress_loop]
    rw [if_pos (by omega)]
  | succ fuel ih =>
    intro i s hi
    simp only [compress_loop]
    rw [if_pos (by omega)]
    cases compress_chunk cd in_data chunk_size i s with
    | none => rfl
    | some s2 =>
      simp only
      exact ih _ _ (by unfold u32; omega)

/-- The function `compress_buffer` returns exactly when no division by zero occurs, the
chunk counter does not wrap and every iteration stays in range. -/
theorem compress_buffer_eq_some (cd : Codec) (in_data : List Nat) (chunk_size : Nat) (f : File) :
    compress_buffer cd in_data chunk_size = some f ↔
      chunk_size ≠ 0 ∧ (cd.bound chunk_size).2 ≠ 0 ∧
      num_chunks_of in_data.length chunk_size < 4294967296 ∧
      (∀ i, i < num_chunks_of in_data.length chunk_size → ChunkOK cd in_data chunk_size i) ∧
      f = container_of cd in_data chunk_size := by
  unfold compress_buffer
  by_cases hc : chunk_size = 0
  · simp [hc]
  by_cases hb : (cd.bound chunk_size).2 = 0
  · simp [hc, hb]
  rw [if_neg hc, if_neg hb]
  by_cases hk : num_chunks_of in_data.length chunk_size < 4294967296
  · have key := compress_loop_eq_some cd in_data chunk_size _ hk
      (num_chunks_of in_data.length chunk_size) 0 ([], [])
    cases hl : compress_loop cd in_data chunk_size (num_chunks_of in_data.length chunk_size)
        (num_chunks_of in_data.length chunk_size) 0 ([], []) with
    | none =>
      simp only [hl, false_iff, not_and, reduceCtorEq, not_false_eq_true]
      intro _ _ _ hall
      have := (key (emit_pages (pages_range cd in_data chunk_size 0 _) ([], [])) (by omega)).2
        ⟨fun j _ h2 => hall j h2, rfl⟩
      rw [hl] at this
      cases this
    | some s =>
      obtain ⟨hall, hs⟩ := (key s (by omega)).1 hl
      simp only [hl, Option.some.injEq]
      constructor
      · intro h
        refine ⟨hc, hb, hk, fun i hi => hall i (Nat.zero_le _) hi, ?_⟩
        rw [← h, hs]
        rfl
      · rintro ⟨_, _, _, _, rfl⟩
        rw [hs]
        rfl
  · have hd := compress_loop_diverges cd in_data chunk_size
      (num_chunks_of in_data.length chunk_size) (by omega)
      (num_chunks_of in_data.length chunk_size) 0 ([], []) (by decide)
    simp only [hd, false_iff, not_and, reduceCtorEq]
    intro _ _ h
    exact absurd h hk

theorem emit_pages_eq (ps : List (List Nat)) (s : List Tile × List Nat) :
    emit_pages ps s = (s.1 ++ tiles_from s.2.length ps, s.2 ++ ps.flatten) := by
  induction ps generalizing s with
  | nil => simp [emit_pages, tiles_from]
  | cons p ps ih =>
    simp only [emit_pages, ih, tiles_from, List.length_append, List.flatten_cons,
      List.append_assoc, List.singleton_append]

theorem length_tiles_from (off : Nat) (ps : List (List Nat)) :
    (tiles_from off ps).length = ps.length := by
  induction ps generalizing off with
  | nil => rfl
  | cons p ps ih => simp only [tiles_from, List.length_cons, ih]

theorem container_of_tiles (cd : Codec) (in_data : List Nat) (chunk_size : Nat) :
    (container_of cd in_data chunk_size).tiles =
      tiles_from 0 (pages_range cd in_data chunk_size 0
        (num_chunks_of in_data.length chunk_size)) := by
  simp [container_of, emit_pages_eq]

theorem container_of_data (cd : Codec) (in_data : List Nat) (chunk_size : Nat) :
    (container_of cd in_data chunk_size).data =
      (pages_range cd in_data chunk_size 0
        (num_chunks_of in_data.length chunk_size)).flatten := by
  simp [container_of, emit_pages_eq]

theorem container_of_compressed_size (cd : Codec) (in_data : List Nat) (chunk_size : Nat) :
    (container_of cd in_data chunk_size).header.compressed_size =
      u32 (container_of cd in_data chunk_size).data.length := rfl

theorem container_of_uncompressed_size (cd : Codec) (in_data : List Nat) (chunk_size : Nat) :
    (container_of cd in_data chunk_size).header.uncompressed_size = u32 in_data.length := rfl

theorem container_of_num_chunks (cd : Codec) (in_data : List Nat) (chunk_size : Nat) :
    (container_of cd in_data chunk_size).header.num_chunks =
      u32 (num_chunks_of in_data.length chunk_size) := rfl

theorem container_of_tiles_per_chunk (cd : Codec) (in_data : List Nat) (chunk_size : Nat) :
    (container_of cd in_data chunk_size).header.tiles_per_chunk =
      u32 (cd.bound chunk_size).2 := rfl

theorem container_of_num_tiles (cd : Codec) (in_data : List Nat) (chunk_size : Nat) :
    (container_of cd in_data chunk_size).header.num_tiles =
      u32 (container_of cd in_data chunk_size).tiles.length := rfl

theorem container_of_chunk_size (cd : Codec) (in_data : List Nat) (chunk_size : Nat) :
    (container_of cd in_data chunk_size).header.chunk_size = u32 chunk_size := rfl

theorem length_chunk_pages (cd : Codec) (in_data : List Nat) (chunk_size i : Nat) :
    (chunk_pages cd in_data chunk_size i).length =
      (cd.bound (cur_chunk_size in_data.length chunk_size i)).2 := by
  simp [chunk_pages]

theorem chunk_input_eq (in_data : List Nat) {c i : Nat}
    (hn : in_data.length < 18446744073709551616) (hlt : i * c < in_data.length) :
    chunk_input in_data c i = (in_data.drop (i * c)).take (min c (in_data.length - i * c)) ∧
    (chunk_input in_data c i).length = min c (in_data.length - i * c) := by
  obtain ⟨e1, e2⟩ := cur_chunk_size_eq hn hlt
  unfold chunk_input
  rw [e1, e2]
  refine ⟨rfl, ?_⟩
  simp only [List.length_take, List.length_drop]
  omega

theorem length_chunk_input_le (in_data : List Nat) (c i : Nat) :
    (chunk_input in_data c i).length ≤ c := by
  unfold chunk_input cur_chunk_size
  rw [List.length_take]
  omega

/-! ## Codecs for which the loop stays in range -/

theorem chunkOK_of_regular (cd : Codec) (hcd : cd.Regular) (in_data : List Nat)
    (c i : Nat) (hn : in_data.length < 18446744073709551616) (hlt : i * c < in_data.length) :
    ChunkOK cd in_data c i := by
  obtain ⟨hmono, hcap⟩ := hcd
  obtain ⟨e1, e2⟩ := cur_chunk_size_eq hn hlt
  have hcur : cur_chunk_size in_data.length c i ≤ c := by rw [e2]; exact Nat.min_le_left _ _
  refine ⟨?_, hmono _ _ hcur, ?_⟩
  · rw [e1, e2]; omega
  · intro p hp
    simp only [chunk_pages, List.mem_map, List.mem_range] at hp
    obtain ⟨j, _, rfl⟩ := hp
    exact hcap _ _ _ _

theorem length_zeros (n : Nat) : (zeros n).length = n := by
  rw [zeros, List.length_replicate]

theorem bigCodec_regular : bigCodec.Regular := by
  refine ⟨fun _ _ _ => le_refl _, ?_⟩
  intro chunk npages cap j
  simp only [bigCodec, List.length_take]
  exact Nat.min_le_left _ _

theorem storeCodec_regular : storeCodec.Regular := by
  refine ⟨fun _ _ _ => le_refl _, ?_⟩
  intro chunk npages cap j
  simp only [storeCodec, List.length_take]
  exact Nat.min_le_left _ _

theorem compress_buffer_regular (cd : Codec) (hcd : cd.Regular) (in_data : List Nat)
    (c : Nat) (hn : in_data.length + c ≤ 18446744073709551616) (hc0 : 0 < c)
    (hk : (in_data.length + c - 1) / c < 4294967296) (hb : 0 < (cd.bound c).2) :
    compress_buffer cd in_data c = some (container_of cd in_data c) := by
  rw [compress_buffer_eq_some]
  have hk2 := num_chunks_of_eq64 hn
  refine ⟨by omega, by omega, by rw [hk2]; exact hk, ?_, rfl⟩
  intro i hi
  rw [hk2] at hi
  exact chunkOK_of_regular cd hcd in_data c i (by omega) (chunk_offset_lt hc0 hi)

theorem bigCodec_chunk_pages (in_data : List Nat) (c i : Nat) :
    chunk_pages bigCodec in_data c i = [(chunk_input in_data c i).take 8589934592] := by
  simp [chunk_pages, bigCodec, max_page_size_of]

/-! ## Chunk partition -/

/-- C3 (amended). For a header with `chunk_size > 0` and `num_chunks = ceil(uncompressed_size
/ chunk_size)`, the output ranges both decoders compute for the chunks `i < num_chunks`
start at `i * chunk_size` with length `min(chunk_size, uncompressed_size - i * chunk_size)`,
lie inside `[0, uncompressed_size)`, are pairwise disjoint, and cover every position below
`uncompressed_size`. When the header is the one `compress_buffer` produced from an input
of fewer than `2^32` bytes with a chunk size below `2^32`, the same ranges are the input
slices the compressor took for each chunk. -/
theorem chunk_partition (h : FileHeader) (hcs : 0 < h.chunk_size)
    (hus : h.uncompressed_size < 4294967296)
    (hnc : h.num_chunks = (h.uncompressed_size + h.chunk_size - 1) / h.chunk_size) :
    (∀ i, i < h.num_chunks →
      (ProcessChunk_args h h.uncompressed_size i).out_offset = i * h.chunk_size ∧
      (ProcessChunk_args h h.uncompressed_size i).out_size =
        min h.chunk_size (h.uncompressed_size - i * h.chunk_size) ∧
      (RecordDispatches_args h i).out_offset =
        (ProcessChunk_args h h.uncompressed_size i).out_offset ∧
      (RecordDispatches_args h i).out_size =
        (ProcessChunk_args h h.uncompressed_size i).out_size ∧
      0 < (ProcessChunk_args h h.uncompressed_size i).out_size ∧
      (ProcessChunk_args h h.uncompressed_size i).out_offset +
        (ProcessChunk_args h h.uncompressed_size i).out_size ≤ h.uncompressed_size) ∧
    (∀ i j p, i < h.num_chunks → j < h.num_chunks → i ≠ j →
      ¬ (in_out_range (ProcessChunk_args h h.uncompressed_size i) p ∧
         in_out_range (ProcessChunk_args h h.uncompressed_size j) p)) ∧
    (∀ p, p < h.uncompressed_size ↔
      ∃ i, i < h.num_chunks ∧ in_out_range (ProcessChunk_args h h.uncompressed_size i) p) ∧
    (∀ cd in_data c f, compress_buffer cd in_data c = some f → f.header = h →
      in_data.length < 4294967296 → c < 4294967296 → ∀ i, i < h.num_chunks →
        u64 (i * c) = (ProcessChunk_args h h.uncompressed_size i).out_offset ∧
        cur_chunk_size in_data.length c i =
          (ProcessChunk_args h h.uncompressed_size i).out_size ∧
        chunk_input in_data c i =
          (in_data.drop (ProcessChunk_args h h.uncompressed_size i).out_offset).take
            (ProcessChunk_args h h.uncompressed_size i).out_size) := by
  have key : ∀ i, i < h.num_chunks →
      (ProcessChunk_args h h.uncompressed_size i).out_offset = i * h.chunk_size ∧
      (ProcessChunk_args h h.uncompressed_size i).out_size =
        min h.chunk_size (h.uncompressed_size - i * h.chunk_size) ∧
      i * h.chunk_size < h.uncompressed_size := by
    intro i hi
    rw [hnc] at hi
    obtain ⟨h1, h2⟩ := ProcessChunk_args_out h i hcs hus hi
    exact ⟨h1, h2, chunk_offset_lt hcs hi⟩
  refine ⟨?_, ?_, ?_, ?_⟩
  · intro i hi
    obtain ⟨h1, h2, h3⟩ := key i hi
    rw [RecordDispatches_args_eq, h1, h2]
    refine ⟨rfl, rfl, rfl, rfl, ?_, ?_⟩ <;> omega
  · intro i j p hi hj hij
    obtain ⟨i1, i2, _⟩ := key i hi
    obtain ⟨j1, j2, _⟩ := key j hj
    unfold in_out_range
    rw [i1, i2, j1, j2]
    rintro ⟨⟨a1, a2⟩, ⟨b1, b2⟩⟩
    rcases Nat.lt_or_gt_of_ne hij with hlt | hlt
    · have := Nat.mul_le_mul_right h.chunk_size (Nat.succ_le_of_lt hlt)
      rw [Nat.succ_mul] at this
      omega
    · have := Nat.mul_le_mul_right h.chunk_size (Nat.succ_le_of_lt hlt)
      rw [Nat.succ_mul] at this
      omega
  · intro p
    constructor
    · intro hp
      have hd := Nat.div_add_mod p h.chunk_size
      have hm := Nat.mod_lt p hcs
      have hmul : p / h.chunk_size * h.chunk_size = h.chunk_size * (p / h.chunk_size) :=
        Nat.mul_comm _ _
      have hi : p / h.chunk_size < h.num_chunks := by
        rw [hnc, lt_ceil_iff hcs]; omega
      obtain ⟨i1, i2, _⟩ := key _ hi
      refine ⟨p / h.chunk_size, hi, ?_⟩
      unfold in_out_range
      rw [i1, i2]
      omega
    · rintro ⟨i, hi, a1, a2⟩
      obtain ⟨i1, i2, _⟩ := key i hi
      rw [i1, i2] at a2
      omega
  · intro cd in_data c f hf hfh hn hc i hi
    obtain ⟨_, _, _, _, rfl⟩ := (compress_buffer_eq_some cd in_data c f).1 hf
    have e1 : h.uncompressed_size = in_data.length := by
      rw [← hfh, container_of_uncompressed_size, u32_of_lt hn]
    have e2 : h.chunk_size = c := by
      rw [← hfh, container_of_chunk_size, u32_of_lt hc]
    obtain ⟨h1, h2, h3⟩ := key i hi
    rw [h1, h2, e1, e2]
    rw [e1, e2] at h3
    obtain ⟨c1, c2⟩ := cur_chunk_size_eq (n := in_data.length) (c := c) (i := i) (by omega) h3
    obtain ⟨c3, _⟩ := chunk_input_eq in_data (c := c) (i := i) (by omega) h3
    exact ⟨c1, c2, c3⟩

/-- Instance of `chunk_partition`: seven bytes in chunks of four. -/
theorem chunk_partition_witness :
    ((0 : Nat) < 4 ∧ (7 : Nat) < 4294967296 ∧ (2 : Nat) = (7 + 4 - 1) / 4) ∧
    (ProcessChunk_args ⟨7, 7, 4, 2, 4, 2⟩ 7 1).out_offset = 4 ∧
    (ProcessChunk_args ⟨7, 7, 4, 2, 4, 2⟩ 7 1).out_size = 3 ∧
    (∀ p, p < 7 ↔ ∃ i, i < 2 ∧ in_out_range (ProcessChunk_args ⟨7, 7, 4, 2, 4, 2⟩ 7 i) p) ∧
    chunk_input [10, 11, 12, 13, 14, 15, 16] 4 1 =
      (([10, 11, 12, 13, 14, 15, 16] : List Nat).drop
        (ProcessChunk_args ⟨7, 7, 4, 2, 4, 2⟩ 7 1).out_offset).take
        (ProcessChunk_args ⟨7, 7, 4, 2, 4, 2⟩ 7 1).out_size :=
  have h := chunk_partition ⟨7, 7, 4, 2, 4, 2⟩ (by decide) (by decide) (by decide)
  ⟨⟨by decide, by decide, by decide⟩, by decide, by decide, h.2.2.1,
    (h.2.2.2 pairCodec [10, 11, 12, 13, 14, 15, 16] 4
      { header := ⟨7, 7, 4, 2, 4, 2⟩,
        tiles := [⟨0, 2⟩, ⟨2, 2⟩, ⟨4, 2⟩, ⟨6, 1⟩],
        data := [10, 11, 12, 13, 14, 15, 16] } (by decide) rfl (by decide) (by decide) 1
      (by decide)).2.2⟩

/-- C3 as stated fails for an input of `2^32 + 8` bytes in chunks of `2^32 + 4`: the header
stores `uncompressed_size = 8`, `chunk_size = 4` and `num_chunks = 2 = ceil(8 / 4)`, the
decoders compute the ranges `[0, 4)` and `[4, 8)`, and the compressor took the slices of
`2^32 + 4` bytes at offset 0 and of 4 bytes at offset `2^32 + 4`. -/
theorem compressor_slices_differ :
    ∃ f, compress_buffer bigCodec (zeros 4294967304) 4294967300 = some f ∧
      f.header.uncompressed_size = 8 ∧ f.header.chunk_size = 4 ∧ f.header.num_chunks = 2 ∧
      (ProcessChunk_args f.header 8 0).out_size = 4 ∧
      (ProcessChunk_args f.header 8 1).out_offset = 4 ∧
      (RecordDispatches_args f.header 0).out_size = 4 ∧
      cur_chunk_size (zeros 4294967304).length 4294967300 0 = 4294967300 ∧
      u64 (1 * 4294967300) = 4294967300 := by
  have hus : (container_of bigCodec (zeros 4294967304) 4294967300).header.uncompressed_size
      = 8 := by
    rw [container_of_uncompressed_size, length_zeros]; decide
  have hcs : (container_of bigCodec (zeros 4294967304) 4294967300).header.chunk_size = 4 := by
    rw [container_of_chunk_size]; decide
  have hnc : (container_of bigCodec (zeros 4294967304) 4294967300).header.num_chunks = 2 := by
    rw [container_of_num_chunks, length_zeros]; decide
  refine ⟨_, compress_buffer_regular bigCodec bigCodec_regular _ 4294967300 ?_
    (by decide) ?_ (by decide), hus, hcs, hnc, ?_, ?_, ?_, ?_, by decide⟩
  · rw [length_zeros]; decide
  · rw [length_zeros]; decide
  · simp only [ProcessChunk_args, hcs]
    decide
  · simp only [ProcessChunk_args, hcs]
    decide
  · simp only [RecordDispatches_args, hcs, hus]
    decide
  · rw [length_zeros]; decide

/-! ## Parameter handling -/

/-- C5 (amended). `compress_buffer` validates nothing and has no error result. With
`chunk_size = 0` it produces no container (line 16 divides by zero). With an empty input
and `chunk_size > 0` it produces a container of zero chunks and zero tiles and writes its
24 header bytes. -/
theorem compress_buffer_no_validation (cd : Codec) (in_data : List Nat) (chunk_size : Nat)
    (hc : 0 < chunk_size) (hb : 0 < (cd.bound chunk_size).2) :
    compress_buffer cd in_data 0 = none ∧
    compress_buffer cd [] chunk_size =
      some { header := ⟨0, 0, u32 chunk_size, u32 (cd.bound chunk_size).2, 0, 0⟩,
             tiles := [], data := [] } ∧
    (compress_buffer_output cd [] chunk_size).map List.length = some 24 := by
  have h1 : compress_buffer cd [] chunk_size =
      some { header := ⟨0, 0, u32 chunk_size, u32 (cd.bound chunk_size).2, 0, 0⟩,
             tiles := [], data := [] } := by
    rw [compress_buffer_eq_some]
    have hk : num_chunks_of ([] : List Nat).length chunk_size = 0 := num_chunks_of_zero _ hc
    refine ⟨by omega, by omega, by rw [hk]; decide, ?_, ?_⟩
    · intro i hi; rw [hk] at hi; omega
    · simp only [container_of, hk, pages_range, emit_pages]
      rfl
  refine ⟨by simp [compress_buffer], h1, ?_⟩
  simp only [compress_buffer_output, h1, Option.map_some']
  rfl

/-- Instance of `compress_buffer_no_validation`. -/
theorem compress_buffer_no_validation_witness :
    ((0 : Nat) < 4 ∧ 0 < (pairCodec.bound 4).2) ∧
    compress_buffer pairCodec [1, 2, 3] 0 = none ∧
    compress_buffer pairCodec [] 4 = some { header := ⟨0, 0, 4, 2, 0, 0⟩, tiles := [], data := [] } :=
  ⟨⟨by decide, by decide⟩,
    (compress_buffer_no_validation pairCodec [1, 2, 3] 4 (by decide) (by decide)).1,
    (compress_buffer_no_validation pairCodec [1, 2, 3] 4 (by decide) (by decide)).2.1⟩

/-- C5 as stated fails: an empty input with `chunk_size = 4` is not rejected; a container
is produced and 24 bytes are written. -/
theorem empty_input_accepted :
    compress_buffer pairCodec [] 4 = some { header := ⟨0, 0, 4, 2, 0, 0⟩, tiles := [], data := [] } ∧
    (compress_buffer_output pairCodec [] 4).map List.length = some 24 := by
  decide

/-! ## Scratch slices -/

/-- C4 (amended). For an input of `n < 2^32` bytes and `0 < chunk_size < 2^32`, the header
of the container `compress_buffer` produces has `num_chunks = ceil(n / chunk_size)`,
`uncompressed_size = n` and `chunk_size` as given; 16 MiB in chunks of 1 MiB give 16
chunks. The container is produced whenever the bound function reports at least one page
for the chunk size and no more pages for a shorter chunk, and the codec stays inside its
pages. -/
theorem header_counts (cd : Codec) (in_data : List Nat) (c : Nat)
    (hn : in_data.length < 4294967296) (hc0 : 0 < c) (hc : c < 4294967296) :
    (∀ f, compress_buffer cd in_data c = some f →
      f.header.num_chunks = (in_data.length + c - 1) / c ∧
      in_data.length ≤ f.header.num_chunks * c ∧
      f.header.num_chunks * c < in_data.length + c ∧
      f.header.uncompressed_size = in_data.length ∧ f.header.chunk_size = c ∧
      (in_data.length = 16777216 → c = 1048576 → f.header.num_chunks = 16)) ∧
    (cd.Regular → 0 < (cd.bound c).2 → ∃ f, compress_buffer cd in_data c = some f) := by
  have hk := num_chunks_of_eq hn hc
  have hkl := ceil_lt_of_lt hn hc0
  constructor
  · intro f hf
    obtain ⟨_, _, _, _, rfl⟩ := (compress_buffer_eq_some cd in_data c f).1 hf
    have e1 : (container_of cd in_data c).header.num_chunks = (in_data.length + c - 1) / c := by
      show u32 (num_chunks_of in_data.length c) = _
      rw [hk, u32_of_lt hkl]
    have e2 : (container_of cd in_data c).header.uncompressed_size = in_data.length :=
      u32_of_lt hn
    have e3 : (container_of cd in_data c).header.chunk_size = c := u32_of_lt hc
    have hb := ceil_bounds (n := in_data.length) hc0
    rw [e1]
    refine ⟨rfl, hb.1, hb.2, e2, e3, ?_⟩
    intro h1 h2
    rw [h1, h2]
  · intro hP hb
    exact ⟨_, compress_buffer_regular cd hP in_data c (by omega) hc0 hkl hb⟩

/-- Instance of `header_counts`: six bytes in chunks of four, with a bound function that
reserves `n + 5` bytes. -/
theorem header_counts_witness :
    (([1, 2, 3, 4, 5, 6] : List Nat).length < 4294967296 ∧ (0 : Nat) < 4 ∧
      (4 : Nat) < 4294967296) ∧
    ∃ f, compress_buffer storeCodec [1, 2, 3, 4, 5, 6] 4 = some f ∧
      f.header.num_chunks = 2 ∧ f.header.uncompressed_size = 6 ∧ f.header.chunk_size = 4 :=
  have h := header_counts storeCodec [1, 2, 3, 4, 5, 6] 4 (by decide) (by decide) (by decide)
  ⟨⟨by decide, by decide, by decide⟩,
    (h.2 storeCodec_regular (by decide)).elim fun f hf =>
      ⟨f, hf, (h.1 f hf).1, (h.1 f hf).2.2.2.1, (h.1 f hf).2.2.2.2.1⟩⟩

/-- C4 as stated fails for an input of `2^32` bytes: in chunks of 1 MiB the container is
produced and its header stores `uncompressed_size = 0`. -/
theorem header_truncates :
    (zeros 4294967296).length = 4294967296 ∧
    ∃ f, compress_buffer bigCodec (zeros 4294967296) 1048576 = some f ∧
      f.header.uncompressed_size = 0 := by
  refine ⟨length_zeros _, _, compress_buffer_regular bigCodec bigCodec_regular _ 1048576 ?_
    (by decide) ?_ (by decide), ?_⟩
  · rw [length_zeros]; decide
  · rw [length_zeros]; decide
  · rw [container_of_uncompressed_size, length_zeros]
    decide

/-- The `chunk_size` field is truncated in the same way: for a one-byte input and
`chunk_size = 2^32` the header stores `chunk_size = 0`. -/
theorem chunk_size_field_truncates :
    compress_buffer bigCodec [7] 4294967296 =
      some { header := ⟨1, 1, 0, 1, 1, 1⟩, tiles := [⟨0, 1⟩], data := [7] } := by
  decide

/-! ## Tile offsets -/

theorem sum_take_succ (l : List Nat) (j x : Nat) (h : l[j]? = some x) :
    (l.take (j + 1)).sum = (l.take j).sum + x := by
  rw [List.take_succ, h]
  simp

theorem sum_take_mono (l : List Nat) {i j : Nat} (h : i ≤ j) :
    (l.take i).sum ≤ (l.take j).sum := by
  obtain ⟨d, rfl⟩ := Nat.exists_eq_add_of_le h
  rw [List.take_add, List.sum_append]
  omega

theorem sum_take_le (l : List Nat) (j : Nat) : (l.take j).sum ≤ l.sum := by
  have := List.sum_take_add_sum_drop l j
  omega

theorem sum_take_cover (l : List Nat) (b : Nat) (hb : b < l.sum) :
    ∃ j x, l[j]? = some x ∧ (l.take j).sum ≤ b ∧ b < (l.take j).sum + x := by
  induction l generalizing b with
  | nil => simp at hb
  | cons a l ih =>
    by_cases hba : b < a
    · exact ⟨0, a, by simp, by simp, by simpa using hba⟩
    · have hb2 : b - a < l.sum := by
        simp only [List.sum_cons] at hb
        omega
      obtain ⟨j, x, h1, h2, h3⟩ := ih (b - a) hb2
      refine ⟨j + 1, x, by simpa using h1, ?_, ?_⟩
      · simp only [List.take_succ_cons, List.sum_cons]; omega
      · simp only [List.take_succ_cons, List.sum_cons]; omega

theorem tiles_from_getElem (ps : List (List Nat)) :
    ∀ (off j : Nat) (t : Tile), off + ps.flatten.length < 4294967296 →
      (tiles_from off ps)[j]? = some t →
      ∃ p, ps[j]? = some p ∧ t.offset = off + (ps.take j).flatten.length ∧
        t.size = p.length := by
  induction ps with
  | nil => intro off j t _ h; simp [tiles_from] at h
  | cons p ps ih =>
    intro off j t hsz h
    simp only [List.flatten_cons, List.length_append] at hsz
    cases j with
    | zero =>
      simp only [tiles_from, List.getElem?_cons_zero, Option.some.injEq] at h
      subst h
      refine ⟨p, by simp, ?_, ?_⟩
      · simp [u32_of_lt (show off < 4294967296 by omega)]
      · simp [u32_of_lt (show p.length < 4294967296 by omega)]
    | succ j =>
      simp only [tiles_from, List.getElem?_cons_succ] at h
      obtain ⟨q, h1, h2, h3⟩ := ih (off + p.length) j t (by omega) h
      refine ⟨q, by simpa using h1, ?_, h3⟩
      simp only [List.take_succ_cons, List.flatten_cons, List.length_append]
      omega

theorem tiles_from_sizes (ps : List (List Nat)) :
    ∀ off, off + ps.flatten.length < 4294967296 →
      (tiles_from off ps).map Tile.size = ps.map List.length := by
  induction ps with
  | nil => intro off _; rfl
  | cons p ps ih =>
    intro off hsz
    simp only [List.flatten_cons, List.length_append] at hsz
    simp only [tiles_from, List.map_cons, ih (off + p.length) (by omega),
      u32_of_lt (show p.length < 4294967296 by omega)]

theorem tiles_from_chained (ps : List (List Nat)) (hsz : ps.flatten.length < 4294967296) :
    Chained (tiles_from 0 ps) := by
  intro j t h
  obtain ⟨p, _, h2, _⟩ := tiles_from_getElem ps 0 j t (by omega) h
  rw [h2, List.map_take, tiles_from_sizes ps 0 (by omega), ← List.map_take,
    ← List.length_flatten]
  omega

theorem chained_disjoint (tiles : List Tile) (hch : Chained tiles) (i j : Nat) (ti tj : Tile)
    (hij : i < j) (hi : tiles[i]? = some ti) (hj : tiles[j]? = some tj) :
    ti.offset + ti.size ≤ tj.offset := by
  rw [hch i ti hi, hch j tj hj, List.map_take, List.map_take]
  have h1 : (tiles.map Tile.size)[i]? = some ti.size := by simp [hi]
  rw [← sum_take_succ _ i _ h1]
  exact sum_take_mono _ hij

theorem chained_cover (tiles : List Tile) (hch : Chained tiles) (b : Nat) :
    b < (tiles.map Tile.size).sum ↔
      ∃ (j : Nat) (t : Tile), tiles[j]? = some t ∧ t.offset ≤ b ∧ b < t.offset + t.size := by
  constructor
  · intro hb
    obtain ⟨j, x, h1, h2, h3⟩ := sum_take_cover _ b hb
    simp only [List.getElem?_map, Option.map_eq_some'] at h1
    obtain ⟨t, ht, rfl⟩ := h1
    refine ⟨j, t, ht, ?_, ?_⟩
    · rw [hch j t ht, List.map_take]; exact h2
    · rw [hch j t ht, List.map_take]; exact h3
  · rintro ⟨j, t, ht, _, h2⟩
    rw [hch j t ht, List.map_take] at h2
    have h1 : (tiles.map Tile.size)[j]? = some t.size := by simp [ht]
    rw [← sum_take_succ _ j _ h1] at h2
    have := sum_take_le (tiles.map Tile.size) (j + 1)
    omega

theorem chained_end_le (tiles : List Tile) (hch : Chained tiles) (j : Nat) (t : Tile)
    (ht : tiles[j]? = some t) : t.offset + t.size ≤ (tiles.map Tile.size).sum := by
  rw [hch j t ht, List.map_take]
  have h1 : (tiles.map Tile.size)[j]? = some t.size := by simp [ht]
  rw [← sum_take_succ _ j _ h1]
  exact sum_take_le _ _

/-- The tiles of a produced container are chained, and the data length is their sum. -/
theorem container_chained (cd : Codec) (in_data : List Nat) (c : Nat)
    (hsz : (container_of cd in_data c).data.length < 4294967296) :
    Chained (container_of cd in_data c).tiles ∧
    (container_of cd in_data c).data.length =
      ((container_of cd in_data c).tiles.map Tile.size).sum := by
  rw [container_of_data] at hsz
  constructor
  · rw [container_of_tiles]
    exact tiles_from_chained _ hsz
  · rw [container_of_data, container_of_tiles, tiles_from_sizes _ 0 (by omega),
      List.length_flatten]

/-- C2 (amended). In a container produced by `compress_buffer` whose data is shorter than
`2^32` bytes, each tile's offset is the sum of the sizes of the tiles before it,
`compressed_size` is the sum of all tile sizes, the byte ranges of two different tiles do
not overlap, and the union of the ranges is `[0, compressed_size)`. -/
theorem tile_ranges (cd : Codec) (in_data : List Nat) (c : Nat) (f : File)
    (hf : compress_buffer cd in_data c = some f) (hsz : f.data.length < 4294967296) :
    (∀ (j : Nat) (t : Tile), f.tiles[j]? = some t → t.offset = ((f.tiles.take j).map Tile.size).sum) ∧
    f.header.compressed_size = (f.tiles.map Tile.size).sum ∧
    f.header.compressed_size = f.data.length ∧
    (∀ (i j : Nat) (ti tj : Tile) (b : Nat), i ≠ j → f.tiles[i]? = some ti → f.tiles[j]? = some tj →
      ¬ (ti.offset ≤ b ∧ b < ti.offset + ti.size ∧ tj.offset ≤ b ∧ b < tj.offset + tj.size)) ∧
    (∀ b, b < f.header.compressed_size ↔
      ∃ (j : Nat) (t : Tile), f.tiles[j]? = some t ∧ t.offset ≤ b ∧ b < t.offset + t.size) := by
  obtain ⟨_, _, _, _, rfl⟩ := (compress_buffer_eq_some cd in_data c f).1 hf
  obtain ⟨hch, hsum⟩ := container_chained cd in_data c hsz
  have hcs : (container_of cd in_data c).header.compressed_size =
      (container_of cd in_data c).data.length := by
    rw [container_of_compressed_size, u32_of_lt hsz]
  refine ⟨hch, by rw [hcs, hsum], hcs, ?_, ?_⟩
  · intro i j ti tj b hij hi hj
    rintro ⟨a1, a2, b1, b2⟩
    rcases Nat.lt_or_gt_of_ne hij with hlt | hlt
    · have := chained_disjoint _ hch i j ti tj hlt hi hj
      omega
    · have := chained_disjoint _ hch j i tj ti hlt hj hi
      omega
  · intro b
    rw [hcs, hsum]
    exact chained_cover _ hch b

/-- Instance of `tile_ranges`: six bytes in chunks of four, with a bound function that
reserves `n + 5` bytes. -/
theorem tile_ranges_witness :
    (compress_buffer storeCodec [1, 2, 3, 4, 5, 6] 4 =
        some { header := ⟨6, 6, 4, 1, 2, 2⟩, tiles := [⟨0, 4⟩, ⟨4, 2⟩],
               data := [1, 2, 3, 4, 5, 6] } ∧
      ([1, 2, 3, 4, 5, 6] : List Nat).length < 4294967296) ∧
    ∀ b, b < 6 ↔ ∃ (j : Nat) (t : Tile), ([⟨0, 4⟩, ⟨4, 2⟩] : List Tile)[j]? = some t ∧
      t.offset ≤ b ∧ b < t.offset + t.size :=
  ⟨⟨by decide, by decide⟩,
    (tile_ranges storeCodec [1, 2, 3, 4, 5, 6] 4
      { header := ⟨6, 6, 4, 1, 2, 2⟩, tiles := [⟨0, 4⟩, ⟨4, 2⟩],
        data := [1, 2, 3, 4, 5, 6] } (by decide) (by decide)).2.2.2.2⟩

theorem length_chunk_input_six (i : Nat) (hi : i < 3) :
    (chunk_input (zeros 6442450944) 2147483648 i).length = 2147483648 := by
  have h := (chunk_input_eq (zeros 6442450944) (c := 2147483648) (i := i)
    (by rw [length_zeros]; decide) (by rw [length_zeros]; omega)).2
  rw [h, length_zeros]
  omega

/-- C2 as stated fails for a container of 6 GiB: with three chunks of `2^31` bytes stored
as they are, the third tile gets offset `2^32 mod 2^32 = 0`, the range of the first tile,
and `compressed_size` is `2^31`, not the sum `3 * 2^31` of the tile sizes. -/
theorem tile_offset_wraps :
    ∃ f, compress_buffer bigCodec (zeros 6442450944) 2147483648 = some f ∧
      f.tiles = [⟨0, 2147483648⟩, ⟨2147483648, 2147483648⟩, ⟨0, 2147483648⟩] ∧
      f.header.compressed_size = 2147483648 := by
  have hk : num_chunks_of (zeros 6442450944).length 2147483648 = 3 := by
    rw [length_zeros]; decide
  have hp : pages_range bigCodec (zeros 6442450944) 2147483648 0 3 =
      [(chunk_input (zeros 6442450944) 2147483648 0).take 8589934592,
       (chunk_input (zeros 6442450944) 2147483648 1).take 8589934592,
       (chunk_input (zeros 6442450944) 2147483648 2).take 8589934592] := by
    simp only [pages_range, bigCodec_chunk_pages, List.singleton_append, List.append_nil]
  have h0 := length_chunk_input_six 0 (by decide)
  have h1 := length_chunk_input_six 1 (by decide)
  have h2 := length_chunk_input_six 2 (by decide)
  refine ⟨_, compress_buffer_regular bigCodec bigCodec_regular _ 2147483648 ?_
    (by decide) ?_ (by decide), ?_, ?_⟩
  · rw [length_zeros]; decide
  · rw [length_zeros]; decide
  · rw [container_of_tiles, hk, hp]
    simp only [tiles_from, List.length_take, h0, h1, h2]
    norm_num [u32]
  · rw [container_of_compressed_size, container_of_data, hk, hp]
    rw [List.length_flatten]
    simp only [List.map_cons, List.map_nil, List.sum_cons, List.sum_nil, List.length_take,
      h0, h1, h2]
    unfold u32
    omega

/-! ## Position of the tiles of a chunk in the table -/

theorem length_pages_range_full (cd : Codec) (in_data : List Nat) (c : Nat)
    (hn : in_data.length < 18446744073709551616) :
    ∀ m, m * c < in_data.length →
      (pages_range cd in_data c 0 m).length = m * (cd.bound c).2 := by
  intro m
  induction m with
  | zero => intro _; simp [pages_range]
  | succ m ih =>
    intro h
    have h2 : m * c < in_data.length := by rw [Nat.succ_mul] at h; omega
    have e := pages_range_add cd in_data c 0 m 1
    rw [e]
    simp only [pages_range, Nat.zero_add, List.append_nil, List.length_append,
      length_chunk_pages, ih h2, cur_chunk_size_full hn h, Nat.succ_mul]

theorem length_pages_range_le (cd : Codec) (in_data : List Nat) (c : Nat) :
    ∀ m a, (∀ j, a ≤ j → j < a + m →
        (cd.bound (cur_chunk_size in_data.length c j)).2 ≤ (cd.bound c).2) →
      (pages_range cd in_data c a m).length ≤ m * (cd.bound c).2 := by
  intro m
  induction m with
  | zero => intro a _; simp [pages_range]
  | succ m ih =>
    intro a h
    have h1 := h a (le_refl _) (by omega)
    have h2 := ih (a + 1) (fun j hj1 hj2 => h j (by omega) (by omega))
    simp only [pages_range, List.length_append, length_chunk_pages, Nat.succ_mul]
    omega

theorem tiles_from_append (a b : List (List Nat)) (off : Nat) :
    tiles_from off (a ++ b) = tiles_from off a ++ tiles_from (off + a.flatten.length) b := by
  induction a generalizing off with
  | nil => simp [tiles_from]
  | cons p ps ih =>
    show _ :: tiles_from (off + p.length) (ps ++ b) = _
    rw [ih]
    simp only [tiles_from, List.cons_append, List.flatten_cons, List.length_append,
      Nat.add_assoc]

theorem pages_range_split (cd : Codec) (in_data : List Nat) (c k i : Nat) (hi : i < k) :
    pages_range cd in_data c 0 k =
      pages_range cd in_data c 0 i ++
        (chunk_pages cd in_data c i ++ pages_range cd in_data c (i + 1) (k - i - 1)) := by
  have e : k = i + ((k - i - 1) + 1) := by omega
  conv => lhs; rw [e]
  rw [pages_range_add]
  simp only [pages_range, Nat.zero_add]

/-- The facts about chunk `i` of a produced container that the decoders rely on. -/
theorem chunk_layout (cd : Codec) (in_data : List Nat) (c i : Nat)
    (K : Nat) (hn : in_data.length < 18446744073709551616)
    (hK : ∀ j, j < K → j * c < in_data.length)
    (hall : ∀ j, j < K → ChunkOK cd in_data c j) (hi : i < K) :
    (pages_range cd in_data c 0 i).length = i * (cd.bound c).2 ∧
    (pages_range cd in_data c 0 K).length ≤ K * (cd.bound c).2 ∧
    i * (cd.bound c).2 + (cd.bound (cur_chunk_size in_data.length c i)).2 ≤
      (pages_range cd in_data c 0 K).length ∧
    min (cd.bound c).2 ((pages_range cd in_data c 0 K).length - i * (cd.bound c).2) =
      (cd.bound (cur_chunk_size in_data.length c i)).2 := by
  have hlt := hK i hi
  have h1 := length_pages_range_full cd in_data c hn i hlt
  have h2 := length_pages_range_le cd in_data c K 0
    (fun j _ hj => (hall j (by omega)).2.1)
  have hsplit := pages_range_split cd in_data c _ i hi
  have hlen : (pages_range cd in_data c 0 K).length =
      i * (cd.bound c).2 + ((cd.bound (cur_chunk_size in_data.length c i)).2 +
        (pages_range cd in_data c (i + 1) (K - i - 1)).length) := by
    rw [hsplit, List.length_append, List.length_append, h1, length_chunk_pages]
  have hle := (hall i hi).2.1
  refine ⟨h1, h2, by omega, ?_⟩
  by_cases hlast : i + 1 < K
  · have hfull := cur_chunk_size_full hn (hK (i + 1) hlast)
    rw [hfull] at hlen ⊢
    omega
  · have hz : K - i - 1 = 0 := by omega
    rw [hz] at hlen
    simp only [pages_range, List.length_nil] at hlen
    omega

/-- C6. In a container produced by `compress_buffer` whose pages array has fewer than
`2^32` descriptors (64 GiB) and whose tile table has fewer than `2^32` tiles (32 GiB), for
every chunk `i < num_chunks`: the table holds
`i * tiles_per_chunk` tiles when iteration `i` starts and `tiles_in_chunk_i` more when it
ends, both as prefixes of the final table; both decoders derive `base_page =
i * tiles_per_chunk` and `num_pages = tiles_in_chunk_i`, the page count the bound function
gave for the chunk's actual size; every tile index read is below `num_tiles`; and
`num_tiles ≤ num_chunks * tiles_per_chunk`. -/
theorem tile_table_agreement (cd : Codec) (in_data : List Nat) (c : Nat) (f : File)
    (i out_len : Nat) (hf : compress_buffer cd in_data c = some f)
    (hn : in_data.length < 18446744073709551616)
    (htpc : (cd.bound c).2 < 4294967296) (hnt : f.tiles.length < 4294967296)
    (hi : i < f.header.num_chunks) :
    (∃ s s1, compress_loop cd in_data c i i 0 ([], []) = some s ∧
      compress_chunk cd in_data c i s = some s1 ∧
      s.1 = f.tiles.take (i * f.header.tiles_per_chunk) ∧
      s.1.length = i * f.header.tiles_per_chunk ∧
      s1.1 = f.tiles.take (i * f.header.tiles_per_chunk +
        (cd.bound (cur_chunk_size in_data.length c i)).2) ∧
      s1.1.length = i * f.header.tiles_per_chunk +
        (cd.bound (cur_chunk_size in_data.length c i)).2) ∧
    (ProcessChunk_args f.header out_len i).base_page = i * f.header.tiles_per_chunk ∧
    (ProcessChunk_args f.header out_len i).num_pages =
      (cd.bound (cur_chunk_size in_data.length c i)).2 ∧
    (RecordDispatches_args f.header i).base_page = i * f.header.tiles_per_chunk ∧
    (RecordDispatches_args f.header i).num_pages =
      (cd.bound (cur_chunk_size in_data.length c i)).2 ∧
    (∀ j, j < (cd.bound (cur_chunk_size in_data.length c i)).2 →
      i * f.header.tiles_per_chunk + j < f.header.num_tiles) ∧
    f.header.num_tiles ≤ f.header.num_chunks * f.header.tiles_per_chunk := by
  obtain ⟨hc0, hb0, hk32, hall, rfl⟩ := (compress_buffer_eq_some cd in_data c f).1 hf
  have hK := fun j (hj : j < num_chunks_of in_data.length c) =>
    num_chunks_of_lt (Nat.pos_of_ne_zero hc0) hj
  have e_nc : (container_of cd in_data c).header.num_chunks = num_chunks_of in_data.length c := by
    rw [container_of_num_chunks, u32_of_lt hk32]
  have e_tpc : (container_of cd in_data c).header.tiles_per_chunk = (cd.bound c).2 := by
    rw [container_of_tiles_per_chunk, u32_of_lt htpc]
  have e_T : (container_of cd in_data c).tiles =
      tiles_from 0 (pages_range cd in_data c 0 (num_chunks_of in_data.length c)) := by
    rw [container_of_tiles]
  have e_len : (container_of cd in_data c).tiles.length =
      (pages_range cd in_data c 0 (num_chunks_of in_data.length c)).length := by
    rw [e_T, length_tiles_from]
  have e_nt : (container_of cd in_data c).header.num_tiles =
      (pages_range cd in_data c 0 (num_chunks_of in_data.length c)).length := by
    rw [container_of_num_tiles, u32_of_lt hnt, e_len]
  rw [e_nc] at hi
  rw [e_len] at hnt
  obtain ⟨l1, l2, l3, l4⟩ := chunk_layout cd in_data c i _ hn hK hall hi
  have hbase : u32 (i * (cd.bound c).2) = i * (cd.bound c).2 := u32_of_lt (by omega)
  have hsub : sub64 (pages_range cd in_data c 0 (num_chunks_of in_data.length c)).length
      (i * (cd.bound c).2) =
      (pages_range cd in_data c 0 (num_chunks_of in_data.length c)).length - i * (cd.bound c).2 :=
    sub64_of_le (by omega) (by omega)
  have hsplit := pages_range_split cd in_data c _ i hi
  rw [e_tpc, e_nt, e_nc]
  refine ⟨?_, ?_, ?_, ?_, ?_, ?_, l2⟩
  · refine ⟨emit_pages (pages_range cd in_data c 0 i) ([], []),
      emit_pages (chunk_pages cd in_data c i) (emit_pages (pages_range cd in_data c 0 i) ([], [])),
      ?_, ?_, ?_, ?_, ?_, ?_⟩
    · exact (compress_loop_eq_some cd in_data c i (by omega) i 0 ([], []) _ (by omega)).2
        ⟨fun j _ hj => hall j (by omega), rfl⟩
    · exact (compress_chunk_eq_some cd in_data c i _ _).2 ⟨hall i hi, rfl⟩
    · rw [e_T, hsplit, tiles_from_append, emit_pages_eq]
      simp only [List.nil_append, List.length_nil]
      rw [List.take_left']
      rw [length_tiles_from, l1]
    · rw [emit_pages_eq]
      simp only [List.nil_append, List.length_nil, length_tiles_from, l1]
    · rw [e_T, hsplit, ← List.append_assoc, tiles_from_append, emit_pages_eq, emit_pages_eq,
        tiles_from_append]
      simp only [List.nil_append, List.length_nil, Nat.zero_add]
      rw [List.take_left']
      rw [List.length_append, length_tiles_from, length_tiles_from, l1, length_chunk_pages]
    · rw [emit_pages_eq, emit_pages_eq]
      simp only [List.nil_append, List.length_nil, List.length_append, length_tiles_from, l1,
        length_chunk_pages]
  · simp only [ProcessChunk_args, e_tpc, hbase]
  · simp only [ProcessChunk_args, e_tpc, e_nt, hbase, hsub, l4]
  · simp only [RecordDispatches_args, e_tpc, hbase]
  · simp only [RecordDispatches_args, e_tpc, e_nt, hbase, hsub, l4]
  · intro j hj
    omega

/-- Instance of `tile_table_agreement`: five bytes in chunks of four; the last chunk has one
tile where a full chunk has two. -/
theorem tile_table_agreement_witness :
    (compress_buffer pairCodec [10, 11, 12, 13, 14] 4 =
        some { header := ⟨5, 5, 4, 2, 3, 2⟩,
               tiles := [⟨0, 2⟩, ⟨2, 2⟩, ⟨4, 1⟩],
               data := [10, 11, 12, 13, 14] } ∧
      ([10, 11, 12, 13, 14] : List Nat).length < 18446744073709551616 ∧
      (pairCodec.bound 4).2 < 4294967296 ∧
      ([⟨0, 2⟩, ⟨2, 2⟩, ⟨4, 1⟩] : List Tile).length < 4294967296 ∧ (1 : Nat) < 2) ∧
    (ProcessChunk_args ⟨5, 5, 4, 2, 3, 2⟩ 5 1).base_page = 1 * 2 ∧
    (ProcessChunk_args ⟨5, 5, 4, 2, 3, 2⟩ 5 1).num_pages =
      (pairCodec.bound (cur_chunk_size 5 4 1)).2 ∧
    (RecordDispatches_args ⟨5, 5, 4, 2, 3, 2⟩ 1).num_pages =
      (pairCodec.bound (cur_chunk_size 5 4 1)).2 ∧
    (pairCodec.bound (cur_chunk_size 5 4 1)).2 = 1 :=
  have h := tile_table_agreement pairCodec [10, 11, 12, 13, 14] 4
    { header := ⟨5, 5, 4, 2, 3, 2⟩,
      tiles := [⟨0, 2⟩, ⟨2, 2⟩, ⟨4, 1⟩],
      data := [10, 11, 12, 13, 14] } 1 5 (by decide) (by decide) (by decide)
    (by decide) (by decide)
  ⟨⟨by decide, by decide, by decide, by decide, by decide⟩, h.2.1, h.2.2.1, h.2.2.2.2.1,
    by decide⟩

/-! ## Decoding a produced container -/

theorem length_write_at (out d : List Nat) (off : Nat) (h : off + d.length ≤ out.length) :
    (write_at out off d).length = out.length := by
  simp only [write_at, List.length_append, List.length_take, List.length_drop]
  omega

theorem getElem?_write_at (out d : List Nat) (off p : Nat) (h : off + d.length ≤ out.length) :
    (write_at out off d)[p]? =
      if p < off then out[p]? else if p < off + d.length then d[p - off]? else out[p]? := by
  have hl : (out.take off).length = off := by
    rw [List.length_take]; omega
  unfold write_at
  rw [List.append_assoc]
  by_cases h1 : p < off
  · rw [if_pos h1, List.getElem?_append_left (by omega), List.getElem?_take, if_pos h1]
  · rw [if_neg h1, List.getElem?_append_right (by omega), hl]
    by_cases h2 : p < off + d.length
    · rw [if_pos h2, List.getElem?_append_left (by omega)]
    · rw [if_neg h2, List.getElem?_append_right (by omega), List.getElem?_drop]
      congr 1
      omega

theorem flatten_slice (ps : List (List Nat)) :
    ∀ (j : Nat) (p : List Nat), ps[j]? = some p →
      (ps.flatten.drop (ps.take j).flatten.length).take p.length = p := by
  induction ps with
  | nil => intro j p h; simp at h
  | cons q qs ih =>
    intro j p h
    cases j with
    | zero =>
      simp only [List.getElem?_cons_zero, Option.some.injEq] at h
      subst h
      simp
    | succ j =>
      simp only [List.getElem?_cons_succ] at h
      have e := ih j p h
      simp only [List.take_succ_cons, List.flatten_cons, List.length_append]
      rw [List.drop_append_eq_append_drop]
      have hz : q.length + (List.take j qs).flatten.length - q.length =
          (List.take j qs).flatten.length := by omega
      rw [List.drop_of_length_le (by omega), hz, List.nil_append]
      exact e

/-- Tile `i * tiles_per_chunk + j` of a produced container describes page `j` of chunk
`i`. -/
theorem container_tile (cd : Codec) (in_data : List Nat) (c i j : Nat)
    (K : Nat) (hn : in_data.length < 18446744073709551616)
    (hK : ∀ j, j < K → j * c < in_data.length)
    (hall : ∀ j, j < K → ChunkOK cd in_data c j)
    (hsz : (pages_range cd in_data c 0 K).flatten.length <
      4294967296)
    (hi : i < K)
    (hj : j < (cd.bound (cur_chunk_size in_data.length c i)).2) :
    ∃ t, (tiles_from 0 (pages_range cd in_data c 0 K))[
        i * (cd.bound c).2 + j]? = some t ∧
      ((pages_range cd in_data c 0 K).flatten.drop t.offset).take
        t.size = cd.compress (chunk_input in_data c i)
          (cd.bound (cur_chunk_size in_data.length c i)).2 (max_page_size_of cd c) j := by
  obtain ⟨l1, _, l3, _⟩ := chunk_layout cd in_data c i K hn hK hall hi
  have hsplit := pages_range_split cd in_data c _ i hi
  have hlt : i * (cd.bound c).2 + j <
      (tiles_from 0 (pages_range cd in_data c 0 K)).length := by
    rw [length_tiles_from]; omega
  obtain ⟨t, ht⟩ : ∃ t, (tiles_from 0 (pages_range cd in_data c 0
      K))[i * (cd.bound c).2 + j]? = some t :=
    ⟨_, List.getElem?_eq_getElem hlt⟩
  obtain ⟨p, hp, hoff, hsize⟩ := tiles_from_getElem _ 0 _ t (by omega) ht
  have hp2 : p = cd.compress (chunk_input in_data c i)
      (cd.bound (cur_chunk_size in_data.length c i)).2 (max_page_size_of cd c) j := by
    rw [hsplit, List.getElem?_append_right (by omega), l1, Nat.add_sub_cancel_left,
      List.getElem?_append_left (by rw [length_chunk_pages]; exact hj)] at hp
    simp only [chunk_pages, List.getElem?_map, List.getElem?_range hj, Option.map_some',
      Option.some.injEq] at hp
    exact hp.symm
  refine ⟨t, ht, ?_⟩
  rw [hoff, hsize, Nat.zero_add, flatten_slice _ _ p hp, hp2]

theorem ProcessChunk_container (cd : Codec) (in_data : List Nat) (c i : Nat) (out : List Nat)
    (hn : in_data.length < 4294967296) (hc0 : c ≠ 0) (hc : c < 4294967296)
    (htpc : (cd.bound c).2 < 4294967296)
    (hall : ∀ j, j < (in_data.length + c - 1) / c → ChunkOK cd in_data c j)
    (hnt : (container_of cd in_data c).tiles.length < 4294967296)
    (hsz : (container_of cd in_data c).data.length < 4294967296)
    (hi : i < (in_data.length + c - 1) / c)
    (hinv : cd.decompress (chunk_pages cd in_data c i) (cur_chunk_size in_data.length c i) =
      some (chunk_input in_data c i))
    (hout : out.length = in_data.length) :
    ProcessChunk cd (container_of cd in_data c) (container_of cd in_data c).header.num_tiles
      out i = some (write_at out (i * c) (chunk_input in_data c i)) := by
  have hcpos : 0 < c := Nat.pos_of_ne_zero hc0
  have hn64 : in_data.length + c ≤ 18446744073709551616 := by omega
  have hk := num_chunks_of_eq64 hn64
  have e_tpc : (container_of cd in_data c).header.tiles_per_chunk = (cd.bound c).2 := by
    rw [container_of_tiles_per_chunk, u32_of_lt htpc]
  have e_cs : (container_of cd in_data c).header.chunk_size = c := by
    rw [container_of_chunk_size, u32_of_lt hc]
  have e_T : (container_of cd in_data c).tiles =
      tiles_from 0 (pages_range cd in_data c 0 ((in_data.length + c - 1) / c)) := by
    rw [container_of_tiles, hk]
  have e_D : (container_of cd in_data c).data =
      (pages_range cd in_data c 0 ((in_data.length + c - 1) / c)).flatten := by
    rw [container_of_data, hk]
  have e_len : (container_of cd in_data c).tiles.length =
      (pages_range cd in_data c 0 ((in_data.length + c - 1) / c)).length := by
    rw [e_T, length_tiles_from]
  have e_nt : (container_of cd in_data c).header.num_tiles =
      (pages_range cd in_data c 0 ((in_data.length + c - 1) / c)).length := by
    rw [container_of_num_tiles, u32_of_lt hnt, e_len]
  obtain ⟨hch, hsum⟩ := container_chained cd in_data c hsz
  have hsz2 := hsz
  rw [e_D] at hsz2
  rw [e_len] at hnt
  have hK : ∀ j, j < (in_data.length + c - 1) / c → j * c < in_data.length :=
    fun j hj => chunk_offset_lt hcpos hj
  obtain ⟨l1, l2, l3, l4⟩ := chunk_layout cd in_data c i _ (by omega) hK hall hi
  have hlt := chunk_offset_lt hcpos hi
  obtain ⟨c1, c2⟩ := cur_chunk_size_eq (n := in_data.length) (c := c) (i := i) (by omega) hlt
  obtain ⟨_, c4⟩ := chunk_input_eq in_data (c := c) (i := i) (by omega) hlt
  have hbase : u32 (i * (cd.bound c).2) = i * (cd.bound c).2 := u32_of_lt (by omega)
  have hoff : u32 (i * c) = i * c := u32_of_lt (by omega)
  have hsub : sub64 (pages_range cd in_data c 0 ((in_data.length + c - 1) / c)).length
      (i * (cd.bound c).2) =
      (pages_range cd in_data c 0 ((in_data.length + c - 1) / c)).length - i * (cd.bound c).2 :=
    sub64_of_le (by omega) (by omega)
  have hsub2 : sub64 out.length (i * c) = in_data.length - i * c := by
    rw [hout]; exact sub64_of_le (by omega) (by omega)
  have hargs : ProcessChunk_args (container_of cd in_data c).header out.length i =
      { base_page := i * (cd.bound c).2
        num_pages := (cd.bound (cur_chunk_size in_data.length c i)).2
        out_offset := i * c
        out_size := cur_chunk_size in_data.length c i } := by
    simp only [ProcessChunk_args, e_tpc, e_cs, e_nt, hbase, hoff, hsub, hsub2, l4, c2]
  have htile : ∀ j, j < (cd.bound (cur_chunk_size in_data.length c i)).2 →
      ∃ t, (container_of cd in_data c).tiles.getD (i * (cd.bound c).2 + j) default = t ∧
        (container_of cd in_data c).tiles[i * (cd.bound c).2 + j]? = some t ∧
        tile_bytes (container_of cd in_data c) t =
          cd.compress (chunk_input in_data c i)
            (cd.bound (cur_chunk_size in_data.length c i)).2 (max_page_size_of cd c) j := by
    intro j hj
    obtain ⟨t, ht, hb⟩ := container_tile cd in_data c i j _ (by omega) hK hall hsz2 hi hj
    refine ⟨t, ?_, ?_, ?_⟩
    · rw [List.getD_eq_getElem?_getD, e_T, ht, Option.getD_some]
    · rw [e_T, ht]
    · unfold tile_bytes
      rw [e_D, hb]
  have g1 : (cd.bound (cur_chunk_size in_data.length c i)).2 = 0 ∨
      i * (cd.bound c).2 + (cd.bound (cur_chunk_size in_data.length c i)).2 ≤
        min (container_of cd in_data c).tiles.length
          (container_of cd in_data c).header.num_tiles := by
    right
    rw [e_len, e_nt, Nat.le_min]
    exact ⟨l3, l3⟩
  have g2 : (List.range (cd.bound (cur_chunk_size in_data.length c i)).2).all (fun j =>
      decide (((container_of cd in_data c).tiles.getD (i * (cd.bound c).2 + j) default).offset +
        ((container_of cd in_data c).tiles.getD (i * (cd.bound c).2 + j) default).size ≤
          (container_of cd in_data c).data.length)) = true := by
    rw [List.all_eq_true]
    intro j hj
    obtain ⟨t, h1, h2, _⟩ := htile j (List.mem_range.1 hj)
    rw [h1, decide_eq_true_eq, hsum]
    exact chained_end_le _ hch _ t h2
  have g3 : i * c + cur_chunk_size in_data.length c i ≤ out.length := by
    rw [c2, hout]; omega
  have hgather : gather_pages (container_of cd in_data c) (i * (cd.bound c).2)
      (cd.bound (cur_chunk_size in_data.length c i)).2 = chunk_pages cd in_data c i := by
    unfold gather_pages chunk_pages
    apply List.map_congr_left
    intro j hj
    obtain ⟨t, h1, _, h3⟩ := htile j (List.mem_range.1 hj)
    rw [h1, h3]
  have hlen : (chunk_input in_data c i).length ≤ cur_chunk_size in_data.length c i := by
    rw [c4, c2]
  unfold ProcessChunk
  simp only [hargs]
  rw [if_pos g1, if_pos g2, if_pos g3, hgather, hinv]
  simp only
  rw [if_pos hlen]

theorem chunk_input_getElem? (in_data : List Nat) (c i p : Nat)
    (hn : in_data.length < 18446744073709551616) (hlt : i * c < in_data.length)
    (h1 : i * c ≤ p) (h2 : p < i * c + (chunk_input in_data c i).length) :
    (chunk_input in_data c i)[p - i * c]? = in_data[p]? := by
  obtain ⟨e1, e2⟩ := chunk_input_eq in_data (c := c) (i := i) hn hlt
  rw [e2] at h2
  rw [e1, List.getElem?_take, if_pos (by omega), List.getElem?_drop]
  congr 1
  omega

theorem decode_chunks_container (cd : Codec) (in_data : List Nat) (c : Nat)
    (hn : in_data.length < 4294967296) (hc0 : c ≠ 0) (hc : c < 4294967296)
    (htpc : (cd.bound c).2 < 4294967296)
    (hall : ∀ j, j < (in_data.length + c - 1) / c → ChunkOK cd in_data c j)
    (hnt : (container_of cd in_data c).tiles.length < 4294967296)
    (hsz : (container_of cd in_data c).data.length < 4294967296)
    (hinv : ∀ i, i < (in_data.length + c - 1) / c →
      cd.decompress (chunk_pages cd in_data c i) (cur_chunk_size in_data.length c i) =
        some (chunk_input in_data c i)) :
    ∀ (order out : List Nat), (∀ i ∈ order, i < (in_data.length + c - 1) / c) →
      out.length = in_data.length →
      ∃ out1, decode_chunks cd (container_of cd in_data c)
          (container_of cd in_data c).header.num_tiles order out = some out1 ∧
        out1.length = in_data.length ∧
        ∀ p, p < in_data.length →
          (p / c ∈ order → out1[p]? = in_data[p]?) ∧ (p / c ∉ order → out1[p]? = out[p]?) := by
  have hcpos : 0 < c := Nat.pos_of_ne_zero hc0
  intro order
  induction order with
  | nil =>
    intro out _ hout
    exact ⟨out, rfl, hout, fun p _ => ⟨fun h => absurd h (List.not_mem_nil _), fun _ => rfl⟩⟩
  | cons i rest ih =>
    intro out hord hout
    have hi := hord i (List.mem_cons_self _ _)
    have hlt := chunk_offset_lt hcpos hi
    have hstep := ProcessChunk_container cd in_data c i out hn hc0 hc htpc hall hnt hsz hi
      (hinv i hi) hout
    obtain ⟨_, c4⟩ := chunk_input_eq in_data (c := c) (i := i) (by omega) hlt
    have hfit : i * c + (chunk_input in_data c i).length ≤ out.length := by
      rw [c4, hout]; omega
    have hlen1 := length_write_at out (chunk_input in_data c i) (i * c) hfit
    obtain ⟨out1, hd, hl, hp⟩ := ih (write_at out (i * c) (chunk_input in_data c i))
      (fun j hj => hord j (List.mem_cons_of_mem _ hj)) (by rw [hlen1, hout])
    refine ⟨out1, ?_, hl, ?_⟩
    · simp only [decode_chunks, hstep]
      exact hd
    · intro p hpn
      obtain ⟨hp1, hp2⟩ := hp p hpn
      have hw := getElem?_write_at out (chunk_input in_data c i) (i * c) p hfit
      have hdm := Nat.div_add_mod p c
      have hml := Nat.mod_lt p hcpos
      have hcomm : c * (p / c) = p / c * c := Nat.mul_comm _ _
      constructor
      · intro hmem
        by_cases hr : p / c ∈ rest
        · exact hp1 hr
        · have hpi : p / c = i := by
            rcases List.mem_cons.1 hmem with h | h
            · exact h
            · exact absurd h hr
          rw [hp2 hr, hw, if_neg (by rw [← hpi]; omega), if_pos (by rw [c4, ← hpi]; omega)]
          exact chunk_input_getElem? in_data c i p (by omega) hlt (by rw [← hpi]; omega)
            (by rw [c4, ← hpi]; omega)
      · intro hmem
        have hr : p / c ∉ rest := fun h => hmem (List.mem_cons_of_mem _ h)
        have hpi : p / c ≠ i := fun h => hmem (h ▸ List.mem_cons_self _ _)
        rw [hp2 hr, hw]
        by_cases h1 : p < i * c
        · rw [if_pos h1]
        · rw [if_neg h1]
          by_cases h2 : p < i * c + (chunk_input in_data c i).length
          · exfalso
            apply hpi
            apply Nat.div_eq_of_lt_le (by omega)
            rw [Nat.succ_mul]
            rw [c4] at h2
            omega
          · rw [if_neg h2]

/-- C1 (amended). For an input of fewer than `2^32` bytes and `0 < chunk_size < 2^32`, take
a container produced by `compress_buffer` whose `tiles_per_chunk`, tile count and data
length are below `2^32`, and a codec whose `decompress` gives back each chunk from the
pages `compress` made for it. Then running `ProcessChunk` over any list of chunk indices
that contains exactly the indices below `num_chunks`, on the buffers `main` allocates,
ends with an output buffer equal to the input, of `uncompressed_size` bytes; this
includes inputs whose length is not a multiple of the chunk size. The container is
produced whenever the bound function reports at least one page for the chunk size and no
more pages for a shorter chunk, and the codec stays inside its pages. -/
theorem decode_inverts_compress (cd : Codec) (in_data : List Nat) (c : Nat)
    (hn : in_data.length < 4294967296) (hc0 : 0 < c) (hc : c < 4294967296) :
    (∀ f order, compress_buffer cd in_data c = some f →
      (cd.bound c).2 < 4294967296 → f.tiles.length < 4294967296 →
      f.data.length < 4294967296 →
      (∀ i, i < f.header.num_chunks →
        cd.decompress (chunk_pages cd in_data c i) (cur_chunk_size in_data.length c i) =
          some (chunk_input in_data c i)) →
      (∀ i ∈ order, i < f.header.num_chunks) → (∀ i, i < f.header.num_chunks → i ∈ order) →
      decode_cpu cd f order = some in_data ∧ f.header.uncompressed_size = in_data.length) ∧
    (cd.Regular → 0 < (cd.bound c).2 → ∃ f, compress_buffer cd in_data c = some f) := by
  have hkl := ceil_lt_of_lt hn hc0
  constructor
  · intro f order hf htpc hnt hsz hinv hord1 hord2
    obtain ⟨hcne, _, _, hall, rfl⟩ := (compress_buffer_eq_some cd in_data c f).1 hf
    have hk := num_chunks_of_eq hn hc
    have e_nc : (container_of cd in_data c).header.num_chunks = (in_data.length + c - 1) / c := by
      rw [container_of_num_chunks, hk, u32_of_lt hkl]
    have e_us : (container_of cd in_data c).header.uncompressed_size = in_data.length := by
      rw [container_of_uncompressed_size, u32_of_lt hn]
    rw [hk] at hall
    rw [e_nc] at hinv hord1 hord2
    refine ⟨?_, e_us⟩
    obtain ⟨out1, hd, hl, hp⟩ := decode_chunks_container cd in_data c hn hcne hc htpc hall hnt
      hsz hinv order (List.replicate in_data.length 0) hord1 (List.length_replicate _ _)
    unfold decode_cpu
    rw [e_us, hd]
    congr 1
    apply List.ext_getElem?
    intro p
    by_cases hpn : p < in_data.length
    · have hpk : p / c < (in_data.length + c - 1) / c := by
        rw [lt_ceil_iff hc0]
        have := Nat.div_mul_le_self p c
        omega
      exact (hp p hpn).1 (hord2 _ hpk)
    · rw [List.getElem?_eq_none (by omega), List.getElem?_eq_none (by omega)]
  · intro hP hb
    exact ⟨_, compress_buffer_regular cd hP in_data c (by omega) hc0 hkl hb⟩

/-- Instance of `decode_inverts_compress`: five bytes in chunks of four, decoded last chunk
first. -/
theorem decode_inverts_compress_witness :
    (([10, 11, 12, 13, 14] : List Nat).length < 4294967296 ∧ (0 : Nat) < 4 ∧
      (4 : Nat) < 4294967296 ∧
      compress_buffer pairCodec [10, 11, 12, 13, 14] 4 =
        some { header := ⟨5, 5, 4, 2, 3, 2⟩,
               tiles := [⟨0, 2⟩, ⟨2, 2⟩, ⟨4, 1⟩],
               data := [10, 11, 12, 13, 14] }) ∧
    decode_cpu pairCodec { header := ⟨5, 5, 4, 2, 3, 2⟩,
                           tiles := [⟨0, 2⟩, ⟨2, 2⟩, ⟨4, 1⟩],
                           data := [10, 11, 12, 13, 14] } [1, 0] =
      some [10, 11, 12, 13, 14] :=
  ⟨⟨by decide, by decide, by decide, by decide⟩,
    ((decode_inverts_compress pairCodec [10, 11, 12, 13, 14] 4 (by decide) (by decide)
      (by decide)).1
      { header := ⟨5, 5, 4, 2, 3, 2⟩,
        tiles := [⟨0, 2⟩, ⟨2, 2⟩, ⟨4, 1⟩],
        data := [10, 11, 12, 13, 14] } [1, 0] (by decide) (by decide) (by decide)
      (by decide) (by decide) (by decide) (by decide)).1⟩

theorem ProcessChunk_length (cd : Codec) (file : File) (pages_len : Nat) (out out1 : List Nat)
    (i : Nat) (h : ProcessChunk cd file pages_len out i = some out1) :
    out1.length = out.length := by
  unfold ProcessChunk at h
  simp only at h
  split at h
  · split at h
    · split at h
      · split at h
        · cases h
        · split at h
          · simp only [Option.some.injEq] at h
            subst h
            apply length_write_at
            omega
          · cases h
      · cases h
    · cases h
  · cases h

theorem decode_chunks_length (cd : Codec) (file : File) (pages_len : Nat) :
    ∀ (order out out1 : List Nat), decode_chunks cd file pages_len order out = some out1 →
      out1.length = out.length := by
  intro order
  induction order with
  | nil =>
    intro out out1 h
    simp only [decode_chunks, Option.some.injEq] at h
    rw [h]
  | cons i rest ih =>
    intro out out1 h
    simp only [decode_chunks] at h
    cases hp : ProcessChunk cd file pages_len out i with
    | none => rw [hp] at h; cases h
    | some out2 =>
      rw [hp] at h
      rw [ih out2 out1 h, ProcessChunk_length cd file pages_len out out2 i hp]

/-- C1 as stated fails for an input of `2^32` bytes: in chunks of 1 MiB, with a codec that
stores each chunk in one page and reads it back, the container is produced with
`uncompressed_size = 0`, so the output buffer `main` allocates is empty and no run of
`ProcessChunk` can end with the input in it. -/
theorem four_gib_input_truncated :
    ∃ f, compress_buffer bigCodec (zeros 4294967296) 1048576 = some f ∧
      (∀ i, bigCodec.decompress (chunk_pages bigCodec (zeros 4294967296) 1048576 i)
          (cur_chunk_size (zeros 4294967296).length 1048576 i) =
        some (chunk_input (zeros 4294967296) 1048576 i)) ∧
      f.header.uncompressed_size = 0 ∧
      ∀ order, decode_cpu bigCodec f order ≠ some (zeros 4294967296) := by
  refine ⟨_, compress_buffer_regular bigCodec bigCodec_regular _ 1048576 ?_
    (by decide) ?_ (by decide), ?_, ?_, ?_⟩
  · rw [length_zeros]; decide
  · rw [length_zeros]; decide
  · intro i
    rw [bigCodec_chunk_pages]
    have := length_chunk_input_le (zeros 4294967296) 1048576 i
    simp only [bigCodec, List.flatten_cons, List.flatten_nil, List.append_nil]
    rw [List.take_of_length_le (by omega)]
  · rw [container_of_uncompressed_size, length_zeros]
    decide
  · intro order h
    have hl := decode_chunks_length _ _ _ _ _ _ h
    rw [length_zeros, List.length_replicate, container_of_uncompressed_size,
      length_zeros] at hl
    revert hl
    decide

/-- With `chunk_size = 2^32` the header stores `chunk_size = 0`, the decoder hands the codec
a destination of zero bytes for the one-byte chunk, and the run has no result. -/
theorem decode_with_truncated_chunk_size :
    compress_buffer bigCodec [7] 4294967296 =
      some { header := ⟨1, 1, 0, 1, 1, 1⟩, tiles := [⟨0, 1⟩], data := [7] } ∧
    decode_cpu bigCodec { header := ⟨1, 1, 0, 1, 1, 1⟩, tiles := [⟨0, 1⟩], data := [7] } [0] =
      none := by
  decide

end GDeflate
